import Mathlib

/-!
# tmux-wormhole: the transfer-reception pipeline of `pkg/wormflow`

A shallow embedding of `src/pkg/wormflow/wormflow.go`.  Go strings are
modelled as `List Char`; every string operation used by the program
(`strings.HasPrefix`, `strings.Contains`, `strings.Replace`,
`filepath.Clean`, `filepath.Join`, `filepath.Abs`, `filepath.Dir`) only
inspects the ASCII characters `/`, `.`, `%`, `s` and `'`, for which the
byte view and the character view of a UTF-8 string agree.
-/

namespace Wormflow

/-! ## Go string and path primitives (Unix build) -/

/-- A Go `string`. -/
abbrev GoString := List Char

/-- Go `strings.HasPrefix(s, prefix)`: `s` starts with `prefix`. -/
def HasPrefix : GoString → GoString → Bool
  | _, [] => true
  | [], _ :: _ => false
  | c :: s, d :: p => c == d && HasPrefix s p

/-- Split a path at every `/`; the result always has at least one element. -/
def splitSep : GoString → List GoString
  | [] => [[]]
  | c :: cs =>
    if c = '/' then [] :: splitSep cs
    else
      match splitSep cs with
      | [] => [[c]]
      | h :: t => (c :: h) :: t

/-- Join path elements with single `/` separators (Go `strings.Join(elems, "/")`). -/
def joinSep : List GoString → GoString
  | [] => []
  | [e] => e
  | e :: es => e ++ '/' :: joinSep es

/-- One iteration of the element loop of Go `filepath.Clean`.  `out` is the
output buffer as a stack of elements, most recent first.  Empty and `.`
elements are dropped; a `..` element removes the preceding real element when
there is one, is dropped at the root of a rooted path, and is kept at the
front of a relative path. -/
def cleanStep (rooted : Bool) (out : List GoString) (e : GoString) : List GoString :=
  if e = [] then out
  else if e = ['.'] then out
  else if e = ['.', '.'] then
    match out with
    | [] => if rooted then [] else [e]
    | top :: rest => if top = ['.', '.'] then e :: out else rest
  else e :: out

/-- Go `filepath.Clean` (Unix): the shortest path equivalent to `path` by
lexical processing.  The empty path becomes `.`. -/
def Clean (path : GoString) : GoString :=
  if path = [] then ['.']
  else
    let rooted := HasPrefix path ['/']
    let out := (splitSep path).foldl (cleanStep rooted) []
    let body := joinSep out.reverse
    if rooted then '/' :: body
    else if body = [] then ['.'] else body

/-- Go `filepath.Join`: leading empty elements are skipped, the rest are
joined with `/` and cleaned; with no non-empty element the result is empty. -/
def Join : List GoString → GoString
  | [] => []
  | e :: es => if e = [] then Join es else Clean (joinSep (e :: es))

/-- Go `filepath.IsAbs` (Unix). -/
def IsAbs (path : GoString) : Bool := HasPrefix path ['/']

/-- Go `filepath.Abs` (Unix).  `wd` is the result of `os.Getwd`. -/
def Abs (wd : Except GoString GoString) (path : GoString) : Except GoString GoString :=
  if IsAbs path then .ok (Clean path)
  else
    match wd with
    | .error err => .error err
    | .ok d => .ok (Join [d, path])

/-- The part of `path` up to and including its last `/`. -/
def dirPart : GoString → GoString
  | [] => []
  | c :: cs =>
    let r := dirPart cs
    if r = [] then (if c = '/' then [c] else []) else c :: r

/-- Go `filepath.Dir` (Unix): all but the last element of `path`, cleaned. -/
def Dir (path : GoString) : GoString := Clean (dirPart path)

/-- Go `strings.Contains(s, substr)`. -/
def Contains : GoString → GoString → Bool
  | [], sub => HasPrefix [] sub
  | c :: cs, sub => HasPrefix (c :: cs) sub || Contains cs sub

/-- Scanning loop of `strings.Replace(s, old, new, -1)` for a non-empty
`old`: `skip` counts the characters of a matched occurrence still to drop. -/
def replaceAux (old new : GoString) : Nat → GoString → GoString
  | _, [] => []
  | skip + 1, _ :: cs => replaceAux old new skip cs
  | 0, c :: cs =>
    if HasPrefix (c :: cs) old then new ++ replaceAux old new (old.length - 1) cs
    else c :: replaceAux old new 0 cs

/-- Go `strings.Replace(s, old, new, -1)`: every non-overlapping instance of
`old`, found left to right, is replaced by `new`.  For an empty `old` Go
inserts `new` before every character and at the end. -/
def Replace (s old new : GoString) : GoString :=
  if old = [] then new ++ s.flatMap (fun c => c :: new)
  else replaceAux old new 0 s

/-- Characters outside the safe class of `shellescape`: letters, digits and
`_ @ % + = : , . / -` (the pattern is the complement of that class). -/
def needsQuote (c : Char) : Bool :=
  !(c.isAlphanum || c ∈ ['_', '@', '%', '+', '=', ':', ',', '.', '/', '-'])

/-- `shellescape.Quote` of github.com/alessio/shellescape: the empty string
becomes `''`; a string with a character outside the safe class is wrapped in
single quotes with every `'` written as `'"'"'`; any other string is returned
unchanged. -/
def Quote (s : GoString) : GoString :=
  if s = [] then ['\'', '\'']
  else if s.any needsQuote then
    '\'' :: Replace s ['\''] ['\'', '"', '\'', '"', '\''] ++ ['\'']
  else s

/-! ## Data model -/

/-- `wormhole.TransferType`. -/
inductive TransferType
  | TransferFile
  | TransferDirectory
  | TransferText
  deriving DecidableEq, Repr

/-- `Transfer.String`: the description of the transfer type shown to the user. -/
def TransferType.String : TransferType → GoString
  | .TransferFile => "file".toList
  | .TransferDirectory => "directory".toList
  | .TransferText => "message".toList

/-- The fields of `wormhole.IncomingMessage` the handler reads (`Typ` is the
field `Type`). -/
structure IncomingMessage where
  Typ : TransferType
  Name : GoString
  UncompressedBytes64 : Int
  deriving DecidableEq, Repr

/-- `Args` of the controller (the `Lower` widget is rendering only). -/
structure Args where
  Code : GoString
  SaveDir : GoString
  OpenCmd : GoString
  NoAskOpen : Bool
  Shell : GoString
  Overwrite : Bool
  deriving DecidableEq, Repr

/-- The button actions of the package: the types `quit`, `showCodeOk`,
`savedAs` and `open`. -/
inductive Action
  | quit
  | showCodeOk
  | savedAs (savedFilename : GoString)
  | openSaved (savedFilename : GoString)
  deriving DecidableEq, Repr

/-- A `dialog.Button`. -/
structure Button where
  Msg : GoString
  action : Action
  deriving DecidableEq, Repr

/-- A function queued on the UI goroutine, at the granularity of the
controller's methods. -/
inductive UiOp
  | previousClose
  | displayCode (code : GoString)
  | doSpin
  | doProg (name : GoString) (trans : TransferType)
  | doMessageThenQuit (message label : GoString)
  | doAskToOpen (savedFilename : GoString)
  | openSaveError (savedFilename cmd err : GoString)
  | SetTarget (target : Int)
  | SetProgress (progress : Int)
  | spinUpdate
  | Quit
  deriving DecidableEq, Repr

/-- Everything the handler does to the outside world. -/
inductive Effect
  | Receive (code : GoString)
  | Reject
  | ui (op : UiOp)
  | Stat (path : GoString)
  | Create (path : GoString)
  | Mkdir (path : GoString)
  | TempFile (dir pattern : GoString)
  | Read (data : GoString)
  | Write (path data : GoString)
  | Close (path : GoString)
  | Remove (path : GoString)
  | closeDone
  | zipNewReader (path : GoString)
  | zipOpen (name : GoString)
  | zipClose (name : GoString)
  | MkdirAll (path : GoString)
  | exec (shell cmd : GoString)
  deriving DecidableEq, Repr

/-- One scheduling step during a copy: a `Read` of the incoming stream that
returns `data`, or a tick of the sampler. -/
inductive Step
  | read (data : GoString)
  | tick
  deriving DecidableEq, Repr

/-- An entry of the received archive with the results of the operations the
extraction loop performs on it (`none` is a nil error). -/
structure ZipEntry where
  Name : GoString
  data : GoString
  openErr : Option GoString
  mkdirAllErr : Option GoString
  createErr : Option GoString
  copyErr : Option GoString
  closeErr : Option GoString
  deriving DecidableEq, Repr

/-- The environment of one run of the handler: the results of the calls it
makes and the schedule of the copy task against the sampler. -/
structure Env where
  /-- result of `client.Receive` -/
  receive : Except GoString IncomingMessage
  /-- result of `os.Getwd` -/
  wd : Except GoString GoString
  /-- result of `fileExists(savedFilename)` -/
  destExists : Bool
  /-- error of `os.Create(savedFilename)` -/
  createErr : Option GoString
  /-- error of `os.Mkdir(dirName)` -/
  mkdirErr : Option GoString
  /-- result of `ioutil.TempFile`: the name of the file created -/
  tempFile : Except GoString GoString
  /-- reads of the stream and sampler ticks while the copy runs -/
  steps : List Step
  /-- error of `io.Copy` / `ioutil.ReadAll` -/
  copyErr : Option GoString
  /-- sampler ticks between the return of the copy and the sampler taking
  the `done` branch -/
  lateTicks : Nat
  /-- error of `zip.NewReader` -/
  zipErr : Option GoString
  /-- `zr.File` in archive order -/
  entries : List ZipEntry
  /-- error of `exec.Command(...).Run()` -/
  execErr : Option GoString

/-! ## The controller's notices -/

/-- The queued function of every notice of the handler: close the previous
dialog, then run `op`. -/
def closeThen (op : UiOp) : List Effect := [.ui .previousClose, .ui op]

/-- `Controller.doReceiveError`. -/
def doReceiveError (err : GoString) : UiOp :=
  .doMessageThenQuit ("Error: ".toList ++ err) "Quit".toList

/-- `Controller.doFileCreateError`. -/
def doFileCreateError (filename err : GoString) : UiOp :=
  .doMessageThenQuit ("Error creating ".toList ++ filename ++ ": ".toList ++ err) "Quit".toList

/-- `Controller.doFileTransferError`. -/
def doFileTransferError (filename err : GoString) : UiOp :=
  .doMessageThenQuit ("Error transferring ".toList ++ filename ++ ": ".toList ++ err) "Quit".toList

/-- `Controller.doTextTransferError`. -/
def doTextTransferError (err : GoString) : UiOp :=
  .doMessageThenQuit ("Error transferring message: ".toList ++ err) "Quit".toList

/-- `Controller.noCode`. -/
def noCode : UiOp :=
  .doMessageThenQuit "No wormhole code found!".toList "Quit".toList

/-- `Controller.doNoOverwrite`. -/
def doNoOverwrite (savedFilename : GoString) : UiOp :=
  .doMessageThenQuit (savedFilename ++ " exists. Will not overwrite.".toList) "Quit".toList

/-- `Controller.doError`. -/
def doError (err : GoString) : UiOp :=
  .doMessageThenQuit ("Error: ".toList ++ err) "Quit".toList

/-- `Controller.doSavedAs`. -/
def doSavedAs (savedFilename : GoString) : UiOp :=
  .doMessageThenQuit ("Saved as ".toList ++ savedFilename) "Ok".toList

/-- The notice of the extraction loop for an entry that fails the path check. -/
def doDangerous (name : GoString) : UiOp :=
  .doMessageThenQuit ("Dangerous filename found: ".toList ++ name) "Quit".toList

/-- The notice of the extraction loop for an entry that cannot be opened. -/
def doOpenFailed (name err : GoString) : UiOp :=
  .doMessageThenQuit (name ++ " open failed: ".toList ++ err) "Quit".toList

/-- The shell command built by `Controller.doOpen`. -/
def shellCmd (OpenCmd savedFilename : GoString) : GoString :=
  if Contains OpenCmd ['%', 's'] then Replace OpenCmd ['%', 's'] (Quote savedFilename)
  else OpenCmd ++ ' ' :: Quote savedFilename

/-- `Controller.doOpen`: run the open command, then report. -/
def doOpen (a : Args) (execErr : Option GoString) (savedFilename : GoString) : List Effect :=
  let cmd := shellCmd a.OpenCmd savedFilename
  .exec a.Shell cmd ::
    match execErr with
    | none => [.ui (doSavedAs savedFilename)]
    | some err => [.ui (.openSaveError savedFilename cmd err)]

/-! ## The copy task and the sampler -/

/-- Value of the `progReader` counter after the given steps: `Read` adds the
number of bytes it returned. -/
def bytesRead : List Step → Nat
  | [] => 0
  | .read data :: rest => data.length + bytesRead rest
  | .tick :: rest => bytesRead rest

/-- The bytes returned by the reads, in order. -/
def streamData : List Step → GoString
  | [] => []
  | .read data :: rest => data ++ streamData rest
  | .tick :: rest => streamData rest

/-- The periodic sample of the File and Directory samplers. -/
def sample (target : Int) (read : Nat) : List Effect :=
  [.ui (.SetTarget target), .ui (.SetProgress read)]

/-- `io.Copy(dst, &progReader{...})` running against the sampler: `read` is
the counter on entry. -/
def copySteps (dst : GoString) (target : Int) : Nat → List Step → List Effect
  | _, [] => []
  | read, .read data :: rest =>
    (if data = [] then [.Read data] else [.Read data, .Write dst data]) ++
      copySteps dst target (read + data.length) rest
  | read, .tick :: rest => sample target read ++ copySteps dst target read rest

/-- Samples taken after the copy has returned and before the sampler takes
the `done` branch. -/
def lateSamples (target : Int) (read : Nat) : Nat → List Effect
  | 0 => []
  | n + 1 => sample target read ++ lateSamples target read n

/-- The `done` branch of the File and Directory samplers up to the delay. -/
def finalSnapshot (target : Int) : List Effect :=
  [.ui (.SetTarget target), .ui (.SetProgress target)]

/-- `ioutil.ReadAll(msg)` running against the spinner ticker. -/
def readAllSteps : List Step → List Effect
  | [] => []
  | .read data :: rest => .Read data :: readAllSteps rest
  | .tick :: rest => .ui .spinUpdate :: readAllSteps rest

/-- Spinner updates after the read has returned. -/
def lateSpins : Nat → List Effect
  | 0 => []
  | n + 1 => .ui .spinUpdate :: lateSpins n

/-! ## The handler `showCodeOk.Changed`

The handler starts goroutines; its effects are listed in an order consistent
with the program order of each goroutine, with the order in which functions
are queued on the UI goroutine, and with `close(done)` preceding the `done`
branch of the sampler. -/

/-- The `errme` closure of the Directory copy task. -/
def errme (err : GoString) : List Effect := closeThen (doError err)

/-- The loop over `zr.File` of the Directory copy task. -/
def extractLoop (wd : Except GoString GoString) (dirName : GoString) :
    List ZipEntry → List Effect
  | [] => []
  | zf :: rest =>
    match Abs wd (Join [dirName, zf.Name]) with
    | .error err => errme err
    | .ok p =>
      if !HasPrefix p dirName then closeThen (doDangerous zf.Name)
      else
        .zipOpen zf.Name ::
        match zf.openErr with
        | some err => closeThen (doOpenFailed zf.Name err)
        | none =>
          .MkdirAll (Dir p) ::
          match zf.mkdirAllErr with
          | some err => errme err
          | none =>
            .Create p ::
            match zf.createErr with
            | some err => errme err
            | none =>
              .Write p zf.data ::
              match zf.copyErr with
              | some err => errme err
              | none =>
                .Close p ::
                match zf.closeErr with
                | some err => errme err
                | none => .zipClose zf.Name :: extractLoop wd dirName rest

/-- The `case wormhole.TransferText` branch. -/
def textTransfer (env : Env) : List Effect :=
  closeThen .doSpin ++
  readAllSteps env.steps ++
  (match env.copyErr with
   | some err => closeThen (doTextTransferError err)
   | none => []) ++
  [.closeDone] ++
  lateSpins env.lateTicks ++
  closeThen (.doMessageThenQuit (streamData env.steps) "Quit".toList)

/-- What the File sampler queues after the delay at 100%. -/
def fileFinish (a : Args) (env : Env) (savedFilename : GoString) : List Effect :=
  .ui .previousClose ::
    if a.OpenCmd = [] then [.ui (doSavedAs savedFilename)]
    else if a.NoAskOpen then doOpen a env.execErr savedFilename
    else [.ui (.doAskToOpen savedFilename)]

/-- The `case wormhole.TransferFile` branch. -/
def fileTransfer (a : Args) (env : Env) (msg : IncomingMessage) : List Effect :=
  let savedFilename := Join [a.SaveDir, msg.Name]
  let target := msg.UncompressedBytes64
  closeThen (.doProg msg.Name msg.Typ) ++
  (if a.Overwrite then [] else [.Stat savedFilename]) ++
  if !a.Overwrite && env.destExists then
    closeThen (doNoOverwrite savedFilename) ++ [.Reject]
  else
    .Create savedFilename ::
    match env.createErr with
    | some err => closeThen (doFileCreateError savedFilename err) ++ [.Reject]
    | none =>
      copySteps savedFilename target 0 env.steps ++
      (match env.copyErr with
       | some err => closeThen (doFileTransferError savedFilename err)
       | none => []) ++
      [.Close savedFilename, .closeDone] ++
      lateSamples target (bytesRead env.steps) env.lateTicks ++
      finalSnapshot target ++
      fileFinish a env savedFilename

/-- The body of the Directory copy task up to its deferred function. -/
def directoryCopy (a : Args) (env : Env) (msg : IncomingMessage) (tmp : GoString) :
    List Effect :=
  copySteps tmp msg.UncompressedBytes64 0 env.steps ++
  match env.copyErr with
  | some err => closeThen (doFileTransferError msg.Name err)
  | none =>
    .zipNewReader tmp ::
    match env.zipErr with
    | some err => closeThen (doError err)
    | none => extractLoop env.wd (Join [a.SaveDir, msg.Name]) env.entries

/-- The `case wormhole.TransferDirectory` branch. -/
def directoryTransfer (a : Args) (env : Env) (msg : IncomingMessage) : List Effect :=
  let dirName := Join [a.SaveDir, msg.Name]
  let target := msg.UncompressedBytes64
  .Mkdir dirName ::
  match env.mkdirErr with
  | some err => closeThen (doError err) ++ [.Reject]
  | none =>
    .TempFile a.SaveDir (msg.Name ++ ".zip.tmp".toList) ::
    match env.tempFile with
    | .error err => closeThen (doError err) ++ [.Reject]
    | .ok tmp =>
      closeThen (.doProg msg.Name msg.Typ) ++
      directoryCopy a env msg tmp ++
      [.Close tmp, .Remove tmp, .closeDone] ++
      lateSamples target (bytesRead env.steps) env.lateTicks ++
      finalSnapshot target ++
      closeThen (doSavedAs dirName)

/-- `showCodeOk.Changed`: the Ok button of the code dialog. -/
def Changed (a : Args) (env : Env) : List Effect :=
  .Receive a.Code ::
  match env.receive with
  | .error err => closeThen (doReceiveError err)
  | .ok msg =>
    match msg.Typ with
    | .TransferText => textTransfer env
    | .TransferFile => fileTransfer a env msg
    | .TransferDirectory => directoryTransfer a env msg

/-! ## The session: dialogs and button presses -/

/-- The buttons of the dialog a UI function opens, if it opens one. -/
def buttonsOf : UiOp → Option (List Button)
  | .displayCode _ => some [⟨"Ok".toList, .showCodeOk⟩, ⟨"Cancel".toList, .quit⟩]
  | .doSpin => some [⟨"Cancel".toList, .quit⟩]
  | .doProg _ _ => some [⟨"Cancel".toList, .quit⟩]
  | .doMessageThenQuit _ label => some [⟨label, .quit⟩]
  | .doAskToOpen f => some [⟨"Yes".toList, .openSaved f⟩, ⟨"No".toList, .savedAs f⟩]
  | .openSaveError f _ _ => some [⟨"Continue".toList, .savedAs f⟩]
  | _ => none

/-- The buttons of the dialog opened last. -/
def topDialog : List Effect → Option (List Button)
  | [] => none
  | e :: rest =>
    match topDialog rest with
    | some bs => some bs
    | none =>
      match e with
      | .ui op => buttonsOf op
      | _ => none

/-- State of a session: everything done so far and whether `app.Quit` was
called. -/
structure Session where
  trace : List Effect
  quit : Bool
  deriving DecidableEq, Repr

/-- Input of the user: a press of the `k`-th button of the dialog on top, or
Ctrl-C / Esc (`UnhandledInput` of `main.go`). -/
inductive Event
  | press (k : Nat)
  | interrupt
  deriving DecidableEq, Repr

/-- `Controller.Start`. -/
def Start (a : Args) : Session :=
  { trace := [.ui (if a.Code = [] then noCode else .displayCode a.Code)], quit := false }

/-- The `Changed` method of a button action. -/
def runAction (a : Args) (env : Env) (s : Session) : Action → Session
  | .quit => { trace := s.trace ++ [.ui .Quit], quit := true }
  | .showCodeOk => { s with trace := s.trace ++ Changed a env }
  | .savedAs f => { s with trace := s.trace ++ closeThen (doSavedAs f) }
  | .openSaved f => { s with trace := s.trace ++ .ui .previousClose :: doOpen a env.execErr f }

/-- One user event; nothing is handled after `app.Quit`. -/
def step (a : Args) (env : Env) (s : Session) : Event → Session
  | .interrupt => if s.quit then s else { trace := s.trace ++ [.ui .Quit], quit := true }
  | .press k =>
    if s.quit then s
    else
      match topDialog s.trace with
      | none => s
      | some bs =>
        match bs.get? k with
        | none => s
        | some b => runAction a env s b.action

/-- A whole session: `Start`, then the events in order. -/
def run (a : Args) (env : Env) (events : List Event) : Session :=
  events.foldl (step a env) (Start a)

/-! ## Observations on a trace -/

/-- A notice that ends a transfer: a `doMessageThenQuit` dialog, the question
whether to open the saved file, or the report that opening failed. -/
def isTerminal : Effect → Bool
  | .ui (.doMessageThenQuit _ _) => true
  | .ui (.doAskToOpen _) => true
  | .ui (.openSaveError _ _ _) => true
  | _ => false

/-- The terminal notices of a trace, in order. -/
def terminalNotices (t : List Effect) : List Effect := t.filter isTerminal

/-- The paths passed to `os.Create`, in order. -/
def created : List Effect → List GoString
  | [] => []
  | .Create p :: rest => p :: created rest
  | _ :: rest => created rest

/-- The argument of a `SetProgress` call. -/
def progressOf : Effect → Option Int
  | .ui (.SetProgress v) => some v
  | _ => none

/-- The values passed to `SetProgress`, in order. -/
def progressValues (t : List Effect) : List Int := t.filterMap progressOf

/-- The argument of a `SetTarget` call. -/
def targetOf : Effect → Option Int
  | .ui (.SetTarget v) => some v
  | _ => none

/-- The values passed to `SetTarget`, in order. -/
def targetValues (t : List Effect) : List Int := t.filterMap targetOf

/-- The number of bytes a `Read` of the incoming stream returned. -/
def readLength : Effect → Nat
  | .Read data => data.length
  | _ => 0

/-- The total number of bytes read from the incoming stream. -/
def bytesConsumed (t : List Effect) : Nat := (t.map readLength).sum

/-- The paths and contents passed to `io.Copy` into a created file or to the
copy of the stream, in order. -/
def written : List Effect → List (GoString × GoString)
  | [] => []
  | .Write p data :: rest => (p, data) :: written rest
  | _ :: rest => written rest

/-- Number of calls of `msg.Reject()`. -/
def rejects : List Effect → Nat
  | [] => 0
  | .Reject :: rest => rejects rest + 1
  | _ :: rest => rejects rest

/-! ## The path check of the extraction loop -/

/-- The path `p` the loop computes for an entry. -/
def resolved (wd : Except GoString GoString) (dirName : GoString) (zf : ZipEntry) :
    Except GoString GoString :=
  Abs wd (Join [dirName, zf.Name])

/-- The loop goes on to extract the entry: `p` was computed and
`strings.HasPrefix(p, dirName)` holds. -/
def accepted (wd : Except GoString GoString) (dirName : GoString) (zf : ZipEntry) : Bool :=
  match resolved wd dirName zf with
  | .ok p => HasPrefix p dirName
  | .error _ => false

/-- The loop takes the `Dangerous filename` branch for the entry. -/
def rejected (wd : Except GoString GoString) (dirName : GoString) (zf : ZipEntry) : Bool :=
  match resolved wd dirName zf with
  | .ok p => !HasPrefix p dirName
  | .error _ => false

/-- The file the loop creates for an entry it extracts. -/
def target (wd : Except GoString GoString) (dirName : GoString) (zf : ZipEntry) : GoString :=
  match resolved wd dirName zf with
  | .ok p => p
  | .error _ => []

/-- Every filesystem and archive operation on the entry succeeds. -/
def opsSucceed (zf : ZipEntry) : Bool :=
  zf.openErr.isNone && zf.mkdirAllErr.isNone && zf.createErr.isNone &&
    zf.copyErr.isNone && zf.closeErr.isNone

/-- The destination is a separator-bounded prefix of `p`: `p` is `dirName`
itself or `dirName` followed by `/` and more. -/
def withinDir (dirName p : GoString) : Bool :=
  p == dirName || HasPrefix p (dirName ++ ['/'])

/-! ## Concrete inputs -/

/-- An archive entry whose operations all succeed. -/
def mkEntry (name data : String) : ZipEntry :=
  ⟨name.toList, data.toList, none, none, none, none, none⟩

/-- Arguments with save directory `/tmp`, no open command, no overwrite. -/
def argsTmp : Args :=
  { Code := "7-guitarist-revenge".toList, SaveDir := "/tmp".toList, OpenCmd := [],
    NoAskOpen := false, Shell := "/bin/sh".toList, Overwrite := false }

/-- An environment in which every call succeeds, the destination does not
exist and the stream delivers `abc`, then `defghij`, with a sample after each
read. -/
def envOk (msg : IncomingMessage) (entries : List ZipEntry) : Env :=
  { receive := .ok msg, wd := .ok "/home/u".toList, destExists := false,
    createErr := none, mkdirErr := none, tempFile := .ok "/tmp/name.zip.tmp42".toList,
    steps := [.read "abc".toList, .tick, .read "defghij".toList, .tick],
    copyErr := none, lateTicks := 1, zipErr := none, entries := entries, execErr := none }

/-- A Directory transfer named `out-real` declared as 5 bytes. -/
def msgDir : IncomingMessage :=
  { Typ := .TransferDirectory, Name := "out-real".toList, UncompressedBytes64 := 5 }

/-- A File transfer named `report.pdf` declared as 5 bytes. -/
def msgFile : IncomingMessage :=
  { Typ := .TransferFile, Name := "report.pdf".toList, UncompressedBytes64 := 5 }

/-! ## Invariants and specification-side definitions -/

/-- The two states of a session started without a code: the notice is up, or
its button (or Ctrl-C / Esc) has quit the application. -/
def noCodeState (s : Session) : Prop :=
  s = { trace := [.ui noCode], quit := false } ∨
  s = { trace := [.ui noCode, .ui .Quit], quit := true }

/-- The literal parts of a command template: the template cut at every `%s`,
scanning left to right. -/
def pieces : GoString → List GoString
  | [] => [[]]
  | [c] => [[c]]
  | c :: d :: rest =>
    if c = '%' ∧ d = 's' then [] :: pieces rest
    else
      match pieces (d :: rest) with
      | [] => [[c]]
      | h :: t => (c :: h) :: t

/-- The parts after the first, each preceded by `sep`. -/
def joinTail (sep : GoString) : List GoString → GoString
  | [] => []
  | x :: xs => sep ++ x ++ joinTail sep xs

/-- The parts with `sep` between neighbours. -/
def joinWith (sep : GoString) : List GoString → GoString
  | [] => []
  | x :: xs => x ++ joinTail sep xs

/-- The template with every placeholder `%s` replaced by `arg`, as the
specification words it: the literal parts of the template with `arg` between
them, so that text coming from `arg` is never scanned for placeholders. -/
def substitute (template arg : GoString) : GoString :=
  joinWith arg (pieces template)

/-- The handler gets as far as starting the copy task and the sampler of a
File or Directory transfer. -/
def copyStarted (a : Args) (env : Env) (msg : IncomingMessage) : Bool :=
  match msg.Typ with
  | .TransferText => false
  | .TransferFile => !(!a.Overwrite && env.destExists) && env.createErr.isNone
  | .TransferDirectory =>
    env.mkdirErr.isNone &&
      match env.tempFile with
      | .ok _ => true
      | .error _ => false

/-- The counter values the sampler sees at its ticks while the copy runs;
`read` is the counter on entry. -/
def tickSamples : Nat → List Step → List Int
  | _, [] => []
  | read, .read data :: rest => tickSamples (read + data.length) rest
  | read, .tick :: rest => (read : Int) :: tickSamples read rest

/-- All periodic samples of a transfer: those taken during the copy, then
those taken after it with the final counter value. -/
def periodicSamples (env : Env) : List Int :=
  tickSamples 0 env.steps ++ List.replicate env.lateTicks (bytesRead env.steps : Int)
/-- The effects that precede the completion signal `close(done)`. -/
def beforeDone : List Effect → List Effect
  | [] => []
  | e :: rest => if e = .closeDone then [] else e :: beforeDone rest

/-- The effects that follow the completion signal `close(done)`. -/
def afterDone : List Effect → List Effect
  | [] => []
  | e :: rest => if e = .closeDone then rest else afterDone rest

/-- A File transfer named `report.pdf` declared as 10 bytes. -/
def msgFile10 : IncomingMessage :=
  { Typ := .TransferFile, Name := "report.pdf".toList, UncompressedBytes64 := 10 }

/-- The data returned by the reads of a schedule, ticks left out. -/
def readsOf : List Step → List GoString
  | [] => []
  | .read data :: rest => data :: readsOf rest
  | .tick :: rest => readsOf rest

/-- The bytes of a `Read` of the incoming stream. -/
def readDataOf : Effect → GoString
  | .Read data => data
  | _ => []

/-- All bytes read from the incoming stream, in the order they were read. -/
def readData (t : List Effect) : GoString := t.flatMap readDataOf

/-- A Text transfer. -/
def msgText : IncomingMessage :=
  { Typ := .TransferText, Name := [], UncompressedBytes64 := 10 }

/-- The handler returns before the copy is started: for a File transfer the
overwrite is refused or the destination cannot be created, for a Directory
transfer `os.Mkdir` or `ioutil.TempFile` fails. -/
def returnsEarly (a : Args) (env : Env) (msg : IncomingMessage) : Bool :=
  match msg.Typ with
  | .TransferText => false
  | .TransferFile => (!a.Overwrite && env.destExists) || env.createErr.isSome
  | .TransferDirectory =>
    env.mkdirErr.isSome ||
      match env.tempFile with
      | .ok _ => false
      | .error _ => true

end Wormflow

/-! # The highlighting widget of `pkg/widgets/hilite`

A shallow embedding of `src/pkg/widgets/hilite/hilite.go`.  The canvas and
cell types of gowid are taken as the data they expose to this package: the
box size, the cell at a position with its rune and colours, and the update of
one cell.  The compiled regexp enters as the function
`FindAllIndex(·, -1)` from the scanned bytes to the index pairs of its
matches. -/

namespace Hilite

/-- A `gowid.TCellColor`. -/
abbrev TCellColor := Nat

/-- What the widget uses of a `gowid.Cell`: its rune and its colours. -/
structure Cell where
  Rune : Int
  Foreground : Option TCellColor
  Background : Option TCellColor
  deriving DecidableEq, Repr

/-- `Cell.WithBackgroundColor`. -/
def Cell.WithBackgroundColor (c : Cell) (a : TCellColor) : Cell :=
  { c with Background := some a }

/-- `Cell.WithForegroundColor`. -/
def Cell.WithForegroundColor (c : Cell) (a : TCellColor) : Cell :=
  { c with Foreground := some a }

/-- What the widget uses of a `gowid.ICanvas`: `BoxRows`, `BoxColumns` and the
cells by column and row. -/
structure Canvas where
  BoxRows : Nat
  BoxColumns : Nat
  CellAt : Nat → Nat → Cell

/-- `ICanvas.SetCellAt(col, row, cell)`. -/
def Canvas.SetCellAt (c : Canvas) (col row : Nat) (cell : Cell) : Canvas :=
  { c with CellAt := fun x y => if x = col ∧ y = row then cell else c.CellAt x y }

/-- `Options` of the widget. -/
structure Options where
  Background : TCellColor
  Foreground : TCellColor
  deriving DecidableEq, Repr

/-- The byte stored for a rune: runes below 32 or above 127 become a space. -/
def toByte (r : Int) : Nat :=
  if r < 32 ∨ r > 127 then 32 else r.toNat

/-- Body of the inner loop of `canvasToArray`: `res[n] = byte(r); n++`. -/
def storeCell (c : Canvas) (i : Nat) (st : List Nat × Nat) (j : Nat) : List Nat × Nat :=
  (st.1.set st.2 (toByte (c.CellAt j i).Rune), st.2 + 1)

/-- Body of the outer loop of `canvasToArray`: one row. -/
def storeRow (c : Canvas) (st : List Nat × Nat) (i : Nat) : List Nat × Nat :=
  (List.range c.BoxColumns).foldl (storeCell c i) st

/-- `canvasToArray`: an array of `BoxRows * BoxColumns` bytes filled row by
row through the running index `n`. -/
def canvasToArray (c : Canvas) : List Nat :=
  ((List.range c.BoxRows).foldl (storeRow c)
    (List.replicate (c.BoxRows * c.BoxColumns) 0, 0)).1

/-- The new colours of a highlighted cell. -/
def recolour (opt : Options) (cell : Cell) : Cell :=
  (cell.WithBackgroundColor opt.Background).WithForegroundColor opt.Foreground

/-- Body of the inner loop of `Render`: recolour the cell of index `j`. -/
def hiliteIndex (opt : Options) (wid : Nat) (res : Canvas) (j : Nat) : Canvas :=
  res.SetCellAt (j % wid) (j / wid) (recolour opt (res.CellAt (j % wid) (j / wid)))

/-- Body of the outer loop of `Render`: the indices `m[0] ≤ j < m[1]` of one
match. -/
def hiliteMatch (opt : Options) (wid : Nat) (res : Canvas) (m : Nat × Nat) : Canvas :=
  (List.range' m.1 (m.2 - m.1)).foldl (hiliteIndex opt wid) res

/-- `Widget.Render` applied to the canvas `res` rendered by the inner widget;
`FindAllIndex` is `w.Match.FindAllIndex(·, -1)`. -/
def Render (FindAllIndex : List Nat → List (Nat × Nat)) (opt : Options) (res : Canvas) :
    Canvas :=
  let cbytes := canvasToArray res
  let found := FindAllIndex cbytes
  let wid := res.BoxColumns
  if wid < 1 then res
  else found.foldl (hiliteMatch opt wid) res

/-- The row-major index `j` lies in one of the match intervals. -/
def inMatch (found : List (Nat × Nat)) (j : Nat) : Prop :=
  ∃ m ∈ found, m.1 ≤ j ∧ j < m.2

/-- A 2 by 3 canvas showing `ab\t` over `cde` without colours. -/
def canvas23 : Canvas :=
  { BoxRows := 2, BoxColumns := 3,
    CellAt := fun x y => ⟨([[97, 98, 9], [99, 100, 101]].getD y []).getD x 0, none, none⟩ }

/-- A matcher that reports the single match `[1, 4)`. -/
def match14 (_ : List Nat) : List (Nat × Nat) := [(1, 4)]

end Hilite

namespace Wormflow

/-- An element that `filepath.Clean` keeps as it is: not empty, not `.`, not
`..`, and without a separator. -/
def Ordinary (e : GoString) : Prop :=
  e ≠ [] ∧ e ≠ ['.'] ∧ e ≠ ['.', '.'] ∧ '/' ∉ e

/-- An element that is neither empty nor `.`. -/
def isKept (e : GoString) : Bool := !(e == [] || e == ['.'])

/-- The rooted path with the given elements. -/
def rootedPath (elems : List GoString) : GoString := '/' :: joinSep elems

/-- Every value passed to `SetProgress`, paired with the number of bytes the
reads of the incoming stream had returned before that call; `n` is the
number of bytes read before the first effect. -/
def samplesWithRead : Nat → List Effect → List (Int × Nat)
  | _, [] => []
  | n, e :: rest =>
    (match progressOf e with
     | some v => [(v, n)]
     | none => []) ++ samplesWithRead (n + readLength e) rest

/-- The zip archive of an empty directory: the 22 bytes of an end of central
directory record. -/
def emptyZip : GoString :=
  ['P', 'K', Char.ofNat 5, Char.ofNat 6] ++ List.replicate 18 (Char.ofNat 0)

/-- A Directory transfer of an empty directory: no file bytes are declared. -/
def msgEmptyDir : IncomingMessage :=
  { Typ := .TransferDirectory, Name := "empty".toList, UncompressedBytes64 := 0 }

/-- The transfer of the empty directory with one sample after the archive has
been read. -/
def envEmptyDir : Env :=
  { envOk msgEmptyDir [] with steps := [.read emptyZip, .tick], lateTicks := 0 }

/-! ## Checks of the path primitives -/

example : Clean "/tmp/out-real/../out-real-evil/x".toList = "/tmp/out-real-evil/x".toList := by decide
example : Clean "a//b/./c/..".toList = "a/b".toList := by decide
example : Clean "../../a".toList = "../../a".toList := by decide
example : Clean "/../a".toList = "/a".toList := by decide
example : Clean "a/..".toList = ".".toList := by decide
example : Clean "/".toList = "/".toList := by decide
example : Join ["/tmp".toList, "out".toList] = "/tmp/out".toList := by decide
example : Join [".".toList, "out".toList] = "out".toList := by decide
example : Dir "/tmp/out/a.txt".toList = "/tmp/out".toList := by decide
example : Dir "a.txt".toList = ".".toList := by decide
example : Quote "/tmp/a b".toList = "'/tmp/a b'".toList := by decide
example : Quote "/tmp/ab".toList = "/tmp/ab".toList := by decide
example : Replace "a%sb%s".toList "%s".toList "X".toList = "aXbX".toList := by decide

/-! ## C1: soundness of the path check -/

set_option maxRecDepth 100000 in
/-- C1 (fails on the code): with save directory `/tmp` and transfer name
`out-real` the destination is `/tmp/out-real`; the entry
`../out-real-evil/x` resolves to `/tmp/out-real-evil/x`, which is not inside
the destination, yet `strings.HasPrefix` accepts it and the handler creates
the file there. -/
theorem path_check_accepts_sibling_directory :
    Join [argsTmp.SaveDir, msgDir.Name] = "/tmp/out-real".toList ∧
    resolved (.ok "/home/u".toList) "/tmp/out-real".toList (mkEntry "../out-real-evil/x" "x")
      = .ok "/tmp/out-real-evil/x".toList ∧
    accepted (.ok "/home/u".toList) "/tmp/out-real".toList (mkEntry "../out-real-evil/x" "x")
      = true ∧
    withinDir "/tmp/out-real".toList "/tmp/out-real-evil/x".toList = false ∧
    created (Changed argsTmp (envOk msgDir [mkEntry "../out-real-evil/x" "x"]))
      = ["/tmp/out-real-evil/x".toList] ∧
    terminalNotices (Changed argsTmp (envOk msgDir [mkEntry "../out-real-evil/x" "x"]))
      = [.ui (doSavedAs "/tmp/out-real".toList)] := by
  exact ⟨by decide, rfl, by decide, by decide, by decide, by decide⟩

/-! ## C2: the extraction loop stops at the first rejected entry -/

theorem extractLoop_rejected (wd : Except GoString GoString) (dirName : GoString)
    (bad : ZipEntry) (post : List ZipEntry) (hbad : rejected wd dirName bad = true) :
    extractLoop wd dirName (bad :: post) = closeThen (doDangerous bad.Name) := by
  unfold rejected resolved at hbad
  unfold extractLoop
  split at hbad
  · next p hp => simp [hp, hbad]
  · simp at hbad

theorem extractLoop_accepted (wd : Except GoString GoString) (dirName : GoString)
    (zf : ZipEntry) (rest : List ZipEntry) (hacc : accepted wd dirName zf = true)
    (hops : opsSucceed zf = true) :
    extractLoop wd dirName (zf :: rest) =
      [.zipOpen zf.Name, .MkdirAll (Dir (target wd dirName zf)), .Create (target wd dirName zf),
        .Write (target wd dirName zf) zf.data, .Close (target wd dirName zf), .zipClose zf.Name]
        ++ extractLoop wd dirName rest := by
  unfold accepted resolved at hacc
  unfold target resolved
  simp only [opsSucceed, Bool.and_eq_true, Option.isNone_iff_eq_none] at hops
  obtain ⟨⟨⟨⟨h1, h2⟩, h3⟩, h4⟩, h5⟩ := hops
  rw [extractLoop]
  split at hacc
  · next p hp => simp [hp, hacc, h1, h2, h3, h4, h5]
  · simp at hacc

theorem extractLoop_prefix (wd : Except GoString GoString) (dirName : GoString)
    (pre : List ZipEntry) (bad : ZipEntry) (post : List ZipEntry)
    (hpre : ∀ zf ∈ pre, accepted wd dirName zf = true ∧ opsSucceed zf = true)
    (hbad : rejected wd dirName bad = true) :
    created (extractLoop wd dirName (pre ++ bad :: post)) = pre.map (target wd dirName) ∧
    written (extractLoop wd dirName (pre ++ bad :: post))
      = pre.map (fun zf => (target wd dirName zf, zf.data)) ∧
    terminalNotices (extractLoop wd dirName (pre ++ bad :: post))
      = [.ui (doDangerous bad.Name)] := by
  induction pre with
  | nil =>
    simp [extractLoop_rejected wd dirName bad post hbad, closeThen, created, written,
      terminalNotices, isTerminal, doDangerous]
  | cons zf pre ih =>
    have hz := hpre zf (List.mem_cons_self _ _)
    have ih := ih (fun z hzm => hpre z (List.mem_cons_of_mem _ hzm))
    rw [List.cons_append, extractLoop_accepted wd dirName zf _ hz.1 hz.2]
    obtain ⟨i1, i2, i3⟩ := ih
    simp [created, written, terminalNotices, isTerminal, i1, i2] 
    simpa [terminalNotices] using i3

/-- C2: if entry `i` is the first entry the path check rejects and the
operations on the entries before it succeed, the loop creates and writes
exactly the files of entries `0..i-1`, in order, and then shows the
`Dangerous filename` notice; nothing is created or written for entry `i` or
any later entry. -/
theorem extractLoop_fail_fast (wd : Except GoString GoString) (dirName : GoString)
    (entries : List ZipEntry) (i : Nat) (hi : i < entries.length)
    (hpre : ∀ zf ∈ entries.take i, accepted wd dirName zf = true ∧ opsSucceed zf = true)
    (hbad : rejected wd dirName (entries.get ⟨i, hi⟩) = true) :
    created (extractLoop wd dirName entries) = (entries.take i).map (target wd dirName) ∧
    written (extractLoop wd dirName entries)
      = (entries.take i).map (fun zf => (target wd dirName zf, zf.data)) ∧
    terminalNotices (extractLoop wd dirName entries)
      = [.ui (doDangerous (entries.get ⟨i, hi⟩).Name)] := by
  have hsplit : entries = entries.take i ++ entries.get ⟨i, hi⟩ :: entries.drop (i + 1) := by
    rw [List.get_eq_getElem, ← List.drop_eq_getElem_cons hi, List.take_append_drop]
  have h := extractLoop_prefix wd dirName (entries.take i) (entries.get ⟨i, hi⟩)
    (entries.drop (i + 1)) hpre hbad
  rw [← hsplit] at h
  exact h

set_option maxRecDepth 100000 in
/-- An archive whose second entry is `../../evil.sh`: only `a/b.txt` is
extracted. -/
theorem extractLoop_fail_fast_witness :
    created (extractLoop (.ok "/home/u".toList) "/tmp/out".toList
      [mkEntry "a/b.txt" "hi", mkEntry "../../evil.sh" "x", mkEntry "c" "y"])
      = ["/tmp/out/a/b.txt".toList] ∧
    terminalNotices (extractLoop (.ok "/home/u".toList) "/tmp/out".toList
      [mkEntry "a/b.txt" "hi", mkEntry "../../evil.sh" "x", mkEntry "c" "y"])
      = [.ui (doDangerous "../../evil.sh".toList)] := by
  have h := extractLoop_fail_fast (.ok "/home/u".toList) "/tmp/out".toList
    [mkEntry "a/b.txt" "hi", mkEntry "../../evil.sh" "x", mkEntry "c" "y"] 1 (by decide)
    (by decide) (by decide)
  exact ⟨h.1.trans (by decide), h.2.2⟩

/-! ## C3: terminal notices of one transfer -/

set_option maxRecDepth 100000 in
/-- C3 (fails on the code): when `io.Copy` of a File transfer fails, the copy
task queues the `Error transferring` notice and its deferred function closes
`done`; the sampler then queues the `Saved as` notice as well.  Likewise a
Directory archive whose only entry is `../../evil.sh` yields the
`Dangerous filename` notice followed by `Saved as`. -/
theorem two_terminal_notices_after_failure :
    terminalNotices
        (Changed argsTmp { envOk msgFile [] with copyErr := some "unexpected EOF".toList })
      = [.ui (doFileTransferError "/tmp/report.pdf".toList "unexpected EOF".toList),
         .ui (doSavedAs "/tmp/report.pdf".toList)] ∧
    terminalNotices (Changed argsTmp (envOk msgDir [mkEntry "../../evil.sh" "x"]))
      = [.ui (doDangerous "../../evil.sh".toList), .ui (doSavedAs "/tmp/out-real".toList)] ∧
    created (Changed argsTmp (envOk msgDir [mkEntry "../../evil.sh" "x"])) = [] := by
  exact ⟨by decide, by decide, by decide⟩

/-! ## C4: a File transfer does not overwrite -/

/-- C4: a File transfer whose destination exists while `Overwrite` is false
does exactly this: receive, show the progress dialog, stat the destination,
show the `exists. Will not overwrite.` notice, reject the transfer.  The
destination is neither created nor written, nothing is read from the stream
and `Reject` is called once. -/
theorem file_overwrite_refused (a : Args) (env : Env) (msg : IncomingMessage)
    (hrecv : env.receive = .ok msg) (htyp : msg.Typ = .TransferFile)
    (hov : a.Overwrite = false) (hex : env.destExists = true) :
    Changed a env =
      [.Receive a.Code, .ui .previousClose, .ui (.doProg msg.Name .TransferFile),
        .Stat (Join [a.SaveDir, msg.Name]), .ui .previousClose,
        .ui (doNoOverwrite (Join [a.SaveDir, msg.Name])), .Reject] ∧
    created (Changed a env) = [] ∧
    written (Changed a env) = [] ∧
    bytesConsumed (Changed a env) = 0 ∧
    rejects (Changed a env) = 1 ∧
    terminalNotices (Changed a env) = [.ui (doNoOverwrite (Join [a.SaveDir, msg.Name]))] := by
  have h : Changed a env =
      [.Receive a.Code, .ui .previousClose, .ui (.doProg msg.Name .TransferFile),
        .Stat (Join [a.SaveDir, msg.Name]), .ui .previousClose,
        .ui (doNoOverwrite (Join [a.SaveDir, msg.Name])), .Reject] := by
    simp [Changed, hrecv, htyp, fileTransfer, hov, hex, closeThen]
  rw [h]
  simp [created, written, bytesConsumed, readLength, rejects, terminalNotices, isTerminal,
    doNoOverwrite]

set_option maxRecDepth 100000 in
/-- The file `/tmp/report.pdf` exists: the only notice is the refusal. -/
theorem file_overwrite_refused_witness :
    terminalNotices (Changed argsTmp { envOk msgFile [] with destExists := true })
      = [.ui (.doMessageThenQuit "/tmp/report.pdf exists. Will not overwrite.".toList
          "Quit".toList)] ∧
    rejects (Changed argsTmp { envOk msgFile [] with destExists := true }) = 1 := by
  have h := file_overwrite_refused argsTmp { envOk msgFile [] with destExists := true } msgFile
    rfl rfl rfl rfl
  exact ⟨h.2.2.2.2.2.trans (by decide), h.2.2.2.2.1⟩

/-! ## C5: a Directory transfer onto an existing destination -/

set_option maxRecDepth 100000 in
/-- C5 (fails on the code): with `/tmp/out-real` present, `os.Mkdir` fails and
the notice is `Error: mkdir /tmp/out-real: file exists`, made by `doError`; it
is not the `exists. Will not overwrite.` notice a File transfer shows. -/
theorem directory_exists_generic_error :
    terminalNotices (Changed argsTmp
        { envOk msgDir [] with
          destExists := true, mkdirErr := some "mkdir /tmp/out-real: file exists".toList })
      = [.ui (.doMessageThenQuit "Error: mkdir /tmp/out-real: file exists".toList
          "Quit".toList)] ∧
    terminalNotices (Changed argsTmp
        { envOk msgDir [] with
          destExists := true, mkdirErr := some "mkdir /tmp/out-real: file exists".toList })
      ≠ [.ui (doNoOverwrite "/tmp/out-real".toList)] := by
  exact ⟨by decide, by decide⟩

/-- C5 (amended): when `os.Mkdir` of the destination fails, as it does for an
existing destination, then whatever `Overwrite` is, a Directory transfer
reads nothing from the stream, creates no temporary file, calls `Reject` once
and shows the `Error: ...` notice of `doError` as its only notice. -/
theorem directory_mkdir_failure (a : Args) (env : Env) (msg : IncomingMessage)
    (err : GoString) (hrecv : env.receive = .ok msg) (htyp : msg.Typ = .TransferDirectory)
    (hmk : env.mkdirErr = some err) :
    Changed a env =
      [.Receive a.Code, .Mkdir (Join [a.SaveDir, msg.Name]), .ui .previousClose,
        .ui (doError err), .Reject] ∧
    bytesConsumed (Changed a env) = 0 ∧
    rejects (Changed a env) = 1 ∧
    terminalNotices (Changed a env) = [.ui (doError err)] := by
  have h : Changed a env =
      [.Receive a.Code, .Mkdir (Join [a.SaveDir, msg.Name]), .ui .previousClose,
        .ui (doError err), .Reject] := by
    simp [Changed, hrecv, htyp, directoryTransfer, hmk, closeThen]
  rw [h]
  simp [bytesConsumed, readLength, rejects, terminalNotices, isTerminal, doError]

set_option maxRecDepth 100000 in
/-- The same with `Overwrite` set: the directory transfer is still refused
with the generic notice. -/
theorem directory_mkdir_failure_witness :
    terminalNotices (Changed { argsTmp with Overwrite := true }
        { envOk msgDir [] with mkdirErr := some "mkdir /tmp/out-real: file exists".toList })
      = [.ui (doError "mkdir /tmp/out-real: file exists".toList)] :=
  (directory_mkdir_failure { argsTmp with Overwrite := true }
    { envOk msgDir [] with mkdirErr := some "mkdir /tmp/out-real: file exists".toList }
    msgDir "mkdir /tmp/out-real: file exists".toList rfl rfl rfl).2.2.2

/-! ## C6: an empty code never reaches the transfer client -/

theorem step_noCodeState (a : Args) (env : Env) (s : Session) (e : Event)
    (hs : noCodeState s) : noCodeState (step a env s e) := by
  rcases hs with hs | hs
  · subst hs
    cases e with
    | interrupt => right; simp [step]
    | press k =>
      cases k with
      | zero => right; simp [step, topDialog, noCode, buttonsOf, runAction]
      | succ k => left; simp [step, topDialog, noCode, buttonsOf]
  · subst hs
    right
    cases e <;> simp [step]

theorem foldl_noCodeState (a : Args) (env : Env) (events : List Event) (s : Session)
    (hs : noCodeState s) : noCodeState (events.foldl (step a env) s) := by
  induction events generalizing s with
  | nil => exact hs
  | cons e es ih => exact ih _ (step_noCodeState a env s e hs)

/-- C6: with an empty code `Start` shows only the `No wormhole code found!`
notice, whose single button quits; after any sequence of user events the
session has done nothing but show that notice and possibly quit, so
`client.Receive` was never called. -/
theorem empty_code_never_receives (a : Args) (env : Env) (events : List Event)
    (h : a.Code = []) :
    (Start a).trace
      = [.ui (.doMessageThenQuit "No wormhole code found!".toList "Quit".toList)] ∧
    topDialog (Start a).trace = some [⟨"Quit".toList, .quit⟩] ∧
    ((run a env events).trace = [.ui noCode] ∨
      (run a env events).trace = [.ui noCode, .ui .Quit]) ∧
    ∀ code, Effect.Receive code ∉ (run a env events).trace := by
  have hstart : Start a = { trace := [.ui noCode], quit := false } := by
    simp [Start, h]
  have hinv : noCodeState (run a env events) := by
    unfold run
    exact foldl_noCodeState a env events _ (Or.inl hstart)
  refine ⟨by rw [hstart]; simp [noCode], by rw [hstart]; simp [noCode, topDialog, buttonsOf],
    ?_, ?_⟩
  · rcases hinv with hs | hs <;> simp [hs]
  · intro code
    rcases hinv with hs | hs <;> simp [hs]

set_option maxRecDepth 100000 in
/-- Pressing every button in sight without a code never calls `Receive`, while
with a code the Ok button does. -/
theorem empty_code_never_receives_witness :
    ((run { argsTmp with Code := [] } (envOk msgFile []) [.press 1, .press 0, .press 0]).trace
        = [.ui noCode] ∨
      (run { argsTmp with Code := [] } (envOk msgFile []) [.press 1, .press 0, .press 0]).trace
        = [.ui noCode, .ui .Quit]) ∧
    Effect.Receive argsTmp.Code ∈ (run argsTmp (envOk msgFile []) [.press 0]).trace :=
  ⟨(empty_code_never_receives { argsTmp with Code := [] } (envOk msgFile [])
      [.press 1, .press 0, .press 0] rfl).2.2.1, by decide⟩

/-! ## C7: the open command -/

theorem pieces_ne_nil (s : GoString) : pieces s ≠ [] := by
  induction s using pieces.induct with
  | case1 => simp [pieces]
  | case2 c => simp [pieces]
  | case3 c d rest h ih => simp [pieces, h]
  | case4 c d rest h hp ih => exact absurd hp ih
  | case5 c d rest h hd t hp ih => simp [pieces, h, hp]

theorem hasPrefix_placeholder (c d : Char) (rest : GoString) :
    HasPrefix (c :: d :: rest) ['%', 's'] = decide (c = '%' ∧ d = 's') := by
  by_cases hc : c = '%' <;> by_cases hd : d = 's' <;> simp [HasPrefix, hc, hd]

theorem replaceAux_eq_joinWith (new s : GoString) :
    replaceAux ['%', 's'] new 0 s = joinWith new (pieces s) := by
  induction s using pieces.induct with
  | case1 => simp [replaceAux, pieces, joinWith, joinTail]
  | case2 c => simp [replaceAux, pieces, joinWith, joinTail, HasPrefix]
  | case3 c d rest h ih =>
    rw [replaceAux, hasPrefix_placeholder]
    simp only [h, decide_True, if_true, List.length_cons, List.length_nil]
    rw [show (0 + 1 + 1 - 1 : Nat) = 0 + 1 from rfl, replaceAux, ih]
    obtain ⟨x, xs, hx⟩ := List.exists_cons_of_ne_nil (pieces_ne_nil rest)
    simp [pieces, h, hx, joinWith, joinTail]
  | case4 c d rest h hp ih => exact absurd hp (pieces_ne_nil _)
  | case5 c d rest h hd t hp ih =>
    rw [replaceAux, hasPrefix_placeholder]
    simp only [h, decide_False, Bool.false_eq_true, if_false]
    rw [ih, pieces]
    simp [h, hp, joinWith]

theorem joinWith_pieces (s : GoString) : joinWith ['%', 's'] (pieces s) = s := by
  induction s using pieces.induct with
  | case1 => simp [pieces, joinWith, joinTail]
  | case2 c => simp [pieces, joinWith, joinTail]
  | case3 c d rest h ih =>
    obtain ⟨x, xs, hx⟩ := List.exists_cons_of_ne_nil (pieces_ne_nil rest)
    rw [hx] at ih
    simp only [joinWith] at ih
    simp [pieces, h, hx, joinWith, joinTail, ih]
  | case4 c d rest h hp ih => exact absurd hp (pieces_ne_nil _)
  | case5 c d rest h hd t hp ih =>
    rw [hp] at ih
    simp only [joinWith] at ih
    simp [pieces, h, hp, joinWith, ih]

theorem pieces_head_first (s hd : GoString) (t : List GoString) (x : Char)
    (hp : pieces s = hd :: t) (hx : HasPrefix hd [x] = true) : HasPrefix s [x] = true := by
  match s with
  | [] =>
    simp only [pieces, List.cons.injEq] at hp
    rw [← hp.1] at hx
    simp [HasPrefix] at hx
  | [c] =>
    simp only [pieces, List.cons.injEq] at hp
    rw [← hp.1] at hx
    exact hx
  | c :: d :: rest =>
    by_cases h : c = '%' ∧ d = 's'
    · rw [pieces] at hp
      simp only [h, and_self, if_true, List.cons.injEq] at hp
      rw [← hp.1] at hx
      simp [HasPrefix] at hx
    · obtain ⟨y, ys, hy⟩ := List.exists_cons_of_ne_nil (pieces_ne_nil (d :: rest))
      rw [pieces] at hp
      simp only [h, if_false, hy] at hp
      simp only [List.cons.injEq] at hp
      rw [← hp.1] at hx
      simpa [HasPrefix] using hx

theorem pieces_no_placeholder (s : GoString) :
    (pieces s).all (fun p => !Contains p ['%', 's']) = true := by
  induction s using pieces.induct with
  | case1 => simp [pieces, Contains, HasPrefix]
  | case2 c => simp [pieces, Contains, HasPrefix]
  | case3 c d rest h ih => simpa [pieces, h, Contains, HasPrefix] using ih
  | case4 c d rest h hp ih => exact absurd hp (pieces_ne_nil _)
  | case5 c d rest h hd t hp ih =>
    rw [hp] at ih
    simp only [List.all_cons, Bool.and_eq_true, Bool.not_eq_true'] at ih
    rw [pieces]
    simp only [h, if_false, hp, List.all_cons, Bool.and_eq_true, Bool.not_eq_true']
    refine ⟨?_, ih.2⟩
    rw [Contains, ih.1, Bool.or_false]
    by_contra hne
    have hpre : HasPrefix (c :: hd) ['%', 's'] = true := by simpa using hne
    match hd, hp, hpre with
    | [], _, hpre => simp [HasPrefix] at hpre
    | e :: hd', hp, hpre =>
      rw [hasPrefix_placeholder] at hpre
      have hce : c = '%' ∧ e = 's' := by simpa using hpre
      have hds := pieces_head_first (d :: rest) (e :: hd') t 's' hp (by simp [HasPrefix, hce.2])
      have : d = 's' := by simpa [HasPrefix] using hds
      exact h ⟨hce.1, this⟩

theorem contains_iff_pieces (s : GoString) :
    Contains s ['%', 's'] = decide (1 < (pieces s).length) := by
  induction s using pieces.induct with
  | case1 => simp [pieces, Contains, HasPrefix]
  | case2 c => simp [pieces, Contains, HasPrefix]
  | case3 c d rest h ih =>
    obtain ⟨x, xs, hx⟩ := List.exists_cons_of_ne_nil (pieces_ne_nil rest)
    simp [pieces, h, hx, Contains, HasPrefix]
  | case4 c d rest h hp ih => exact absurd hp (pieces_ne_nil _)
  | case5 c d rest h hd t hp ih =>
    rw [Contains, hasPrefix_placeholder, ih, pieces]
    simp [h, hp]

/-- C7: the shell command of `doOpen` is, when the template contains `%s`,
the literal parts of the template with the quoted path between them (every
placeholder replaced, the inserted text not rescanned), and otherwise the
template, one space and the quoted path.  The parts are cut exactly at the
placeholders: joined by `%s` they give the template back, none of them
contains `%s`, and there is more than one exactly when the template contains
`%s`.  The saved path enters the command only as `Quote savedFilename`. -/
theorem shellCmd_spec (OpenCmd savedFilename : GoString) :
    shellCmd OpenCmd savedFilename =
      (if Contains OpenCmd ['%', 's'] then substitute OpenCmd (Quote savedFilename)
       else OpenCmd ++ [' '] ++ Quote savedFilename) ∧
    joinWith ['%', 's'] (pieces OpenCmd) = OpenCmd ∧
    (pieces OpenCmd).all (fun p => !Contains p ['%', 's']) = true ∧
    Contains OpenCmd ['%', 's'] = decide (1 < (pieces OpenCmd).length) := by
  refine ⟨?_, joinWith_pieces OpenCmd, pieces_no_placeholder OpenCmd,
    contains_iff_pieces OpenCmd⟩
  unfold shellCmd substitute Replace
  split
  · simp [replaceAux_eq_joinWith]
  · simp

example : shellCmd "open %s and %s".toList "/tmp/a b".toList
    = "open '/tmp/a b' and '/tmp/a b'".toList := by decide
example : shellCmd "xdg-open".toList "/tmp/it's".toList
    = "xdg-open '/tmp/it'\"'\"'s'".toList := by decide
example : shellCmd "view %s".toList "%s".toList = "view %s".toList := by decide

/-! ## Progress values of a transfer (C8, C9) -/

theorem progressValues_append (s t : List Effect) :
    progressValues (s ++ t) = progressValues s ++ progressValues t := by
  simp [progressValues]

theorem targetValues_append (s t : List Effect) :
    targetValues (s ++ t) = targetValues s ++ targetValues t := by
  simp [targetValues]

theorem bytesConsumed_append (s t : List Effect) :
    bytesConsumed (s ++ t) = bytesConsumed s + bytesConsumed t := by
  simp [bytesConsumed]

theorem progressValues_copySteps (dst : GoString) (target : Int) (steps : List Step)
    (read : Nat) :
    progressValues (copySteps dst target read steps) = tickSamples read steps := by
  induction steps generalizing read with
  | nil => simp [copySteps, tickSamples, progressValues]
  | cons st rest ih =>
    cases st with
    | read data =>
      rw [copySteps, progressValues_append, ih, tickSamples]
      by_cases hd : data = [] <;> simp [hd, progressValues, progressOf]
    | tick =>
      rw [copySteps, progressValues_append, ih, tickSamples]
      simp [sample, progressValues, progressOf]

theorem targetValues_copySteps (dst : GoString) (target : Int) (steps : List Step)
    (read : Nat) :
    targetValues (copySteps dst target read steps)
      = List.replicate (tickSamples read steps).length target := by
  induction steps generalizing read with
  | nil => simp [copySteps, tickSamples, targetValues]
  | cons st rest ih =>
    cases st with
    | read data =>
      rw [copySteps, targetValues_append, ih, tickSamples]
      by_cases hd : data = [] <;> simp [hd, targetValues, targetOf]
    | tick =>
      rw [copySteps, targetValues_append, ih, tickSamples]
      simp [sample, targetValues, targetOf, List.replicate_succ]

theorem bytesConsumed_copySteps (dst : GoString) (target : Int) (steps : List Step)
    (read : Nat) :
    bytesConsumed (copySteps dst target read steps) = bytesRead steps := by
  induction steps generalizing read with
  | nil => simp [copySteps, bytesRead, bytesConsumed]
  | cons st rest ih =>
    cases st with
    | read data =>
      rw [copySteps, bytesConsumed_append, ih, bytesRead]
      by_cases hd : data = [] <;> simp [hd, bytesConsumed, readLength]
    | tick =>
      rw [copySteps, bytesConsumed_append, ih, bytesRead]
      simp [sample, bytesConsumed, readLength]

theorem progressValues_lateSamples (target : Int) (read n : Nat) :
    progressValues (lateSamples target read n) = List.replicate n (read : Int) := by
  induction n with
  | zero => simp [lateSamples, progressValues]
  | succ n ih =>
    rw [lateSamples, progressValues_append, ih]
    simp [sample, progressValues, progressOf, List.replicate_succ]

theorem targetValues_lateSamples (target : Int) (read n : Nat) :
    targetValues (lateSamples target read n) = List.replicate n target := by
  induction n with
  | zero => simp [lateSamples, targetValues]
  | succ n ih =>
    rw [lateSamples, targetValues_append, ih]
    simp [sample, targetValues, targetOf, List.replicate_succ]

theorem bytesConsumed_lateSamples (target : Int) (read n : Nat) :
    bytesConsumed (lateSamples target read n) = 0 := by
  induction n with
  | zero => simp [lateSamples, bytesConsumed]
  | succ n ih =>
    rw [lateSamples, bytesConsumed_append, ih]
    simp [sample, bytesConsumed, readLength]

/-- The extraction loop touches neither the progress bar nor the stream nor
the completion signal. -/
theorem extractLoop_quiet (wd : Except GoString GoString) (dirName : GoString)
    (entries : List ZipEntry) :
    progressValues (extractLoop wd dirName entries) = [] ∧
    targetValues (extractLoop wd dirName entries) = [] ∧
    bytesConsumed (extractLoop wd dirName entries) = 0 ∧
    Effect.closeDone ∉ extractLoop wd dirName entries := by
  induction entries with
  | nil => simp [extractLoop, progressValues, targetValues, bytesConsumed]
  | cons zf rest ih =>
    obtain ⟨i1, i2, i3, i4⟩ := ih
    simp only [progressValues, targetValues, bytesConsumed] at i1 i2 i3
    rw [extractLoop]
    cases hA : Abs wd (Join [dirName, zf.Name]) with
    | error err =>
      simp [errme, closeThen, doError, progressValues, targetValues, bytesConsumed,
        progressOf, targetOf, readLength]
    | ok p =>
      cases h1 : zf.openErr <;> cases h2 : zf.mkdirAllErr <;> cases h3 : zf.createErr <;>
        cases h4 : zf.copyErr <;> cases h5 : zf.closeErr <;>
        by_cases hp : HasPrefix p dirName = true <;>
        simp [hp, errme, closeThen, doError, doDangerous, doOpenFailed, progressValues,
          targetValues, bytesConsumed, progressOf, targetOf, readLength, i1, i2, i3, i4]

theorem tickSamples_bounds (steps : List Step) (read : Nat) :
    ∀ v ∈ tickSamples read steps, (read : Int) ≤ v ∧ v ≤ (read + bytesRead steps : Nat) := by
  induction steps generalizing read with
  | nil => simp [tickSamples]
  | cons st rest ih =>
    cases st with
    | read data =>
      intro v hv
      rw [tickSamples] at hv
      have h := ih (read + data.length) v hv
      rw [bytesRead]
      constructor
      · have : (read : Int) ≤ ((read + data.length : Nat) : Int) := by omega
        exact le_trans this h.1
      · have : read + data.length + bytesRead rest = read + (data.length + bytesRead rest) := by
          omega
        rw [← this]
        exact h.2
    | tick =>
      intro v hv
      rw [tickSamples, List.mem_cons] at hv
      rw [bytesRead]
      rcases hv with hv | hv
      · subst hv
        constructor
        · exact le_refl _
        · omega
      · exact ih read v hv

theorem tickSamples_pairwise (steps : List Step) (read : Nat) :
    (tickSamples read steps).Pairwise (· ≤ ·) := by
  induction steps generalizing read with
  | nil => simp [tickSamples]
  | cons st rest ih =>
    cases st with
    | read data => rw [tickSamples]; exact ih _
    | tick =>
      rw [tickSamples, List.pairwise_cons]
      exact ⟨fun v hv => (tickSamples_bounds rest read v hv).1, ih read⟩

theorem periodicSamples_bounds (env : Env) :
    ∀ v ∈ periodicSamples env, 0 ≤ v ∧ v ≤ (bytesRead env.steps : Int) := by
  intro v hv
  rw [periodicSamples, List.mem_append] at hv
  rcases hv with hv | hv
  · have h := tickSamples_bounds env.steps 0 v hv
    simp only [Nat.zero_add] at h
    exact ⟨by simpa using h.1, h.2⟩
  · rw [List.mem_replicate] at hv
    rw [hv.2]
    exact ⟨by omega, le_refl _⟩

theorem periodicSamples_pairwise (env : Env) : (periodicSamples env).Pairwise (· ≤ ·) := by
  rw [periodicSamples, List.pairwise_append]
  refine ⟨tickSamples_pairwise _ _, by simp [List.pairwise_replicate], ?_⟩
  intro v hv w hw
  rw [List.mem_replicate] at hw
  rw [hw.2]
  have h := tickSamples_bounds env.steps 0 v hv
  simp only [Nat.zero_add] at h
  exact h.2

theorem progressValues_cons (e : Effect) (t : List Effect) :
    progressValues (e :: t) = (progressOf e).toList ++ progressValues t := by
  cases h : progressOf e <;> simp [progressValues, h]

theorem targetValues_cons (e : Effect) (t : List Effect) :
    targetValues (e :: t) = (targetOf e).toList ++ targetValues t := by
  cases h : targetOf e <;> simp [targetValues, h]

theorem bytesConsumed_cons (e : Effect) (t : List Effect) :
    bytesConsumed (e :: t) = readLength e + bytesConsumed t := by
  simp [bytesConsumed]

theorem progressValues_nil : progressValues [] = [] := rfl

theorem targetValues_nil : targetValues [] = [] := rfl

theorem bytesConsumed_nil : bytesConsumed [] = 0 := rfl

theorem replicate_append_snoc (m n : Nat) (x : Int) :
    List.replicate m x ++ (List.replicate n x ++ [x]) = List.replicate (m + n + 1) x := by
  rw [← List.append_assoc, ← List.replicate_add]
  exact (List.replicate_succ' (m + n) x).symm

theorem fileFinish_quiet (a : Args) (env : Env) (f : GoString) :
    progressValues (fileFinish a env f) = [] ∧ targetValues (fileFinish a env f) = [] ∧
    bytesConsumed (fileFinish a env f) = 0 ∧ Effect.closeDone ∉ fileFinish a env f := by
  unfold fileFinish doOpen
  by_cases h1 : a.OpenCmd = [] <;> by_cases h2 : a.NoAskOpen = true <;>
    cases h3 : env.execErr <;>
    simp [h1, h2, doSavedAs, progressValues_cons, targetValues_cons, bytesConsumed_cons,
      progressValues_nil, targetValues_nil, bytesConsumed_nil, progressOf, targetOf, readLength]

set_option maxRecDepth 10000 in
/-- The progress bar and stream observations of a transfer whose copy was
started: the `SetProgress` values are the periodic samples followed by the
declared size, every `SetTarget` value is the declared size, and the bytes
read are those of the copy. -/
theorem started_transfer_observations (a : Args) (env : Env) (msg : IncomingMessage)
    (hrecv : env.receive = .ok msg) (hstart : copyStarted a env msg = true) :
    progressValues (Changed a env) = periodicSamples env ++ [msg.UncompressedBytes64] ∧
    targetValues (Changed a env)
      = List.replicate ((periodicSamples env).length + 1) msg.UncompressedBytes64 ∧
    bytesConsumed (Changed a env) = bytesRead env.steps := by
  unfold copyStarted at hstart
  cases htyp : msg.Typ with
  | TransferText => simp [htyp] at hstart
  | TransferFile =>
    simp only [htyp, Bool.and_eq_true, Bool.not_eq_true', Option.isNone_iff_eq_none] at hstart
    obtain ⟨hno, hcreate⟩ := hstart
    obtain ⟨f1, f2, f3, -⟩ := fileFinish_quiet a env (Join [a.SaveDir, msg.Name])
    have hC : Changed a env = .Receive a.Code :: fileTransfer a env msg := by
      simp [Changed, hrecv, htyp]
    rw [hC]
    unfold fileTransfer
    simp only [hno, hcreate]
    cases hov : a.Overwrite <;> cases hce : env.copyErr <;>
      simp [progressValues_append, targetValues_append, bytesConsumed_append,
        progressValues_cons, targetValues_cons, bytesConsumed_cons,
        progressValues_nil, targetValues_nil, bytesConsumed_nil,
        progressValues_copySteps, targetValues_copySteps, bytesConsumed_copySteps,
        progressValues_lateSamples, targetValues_lateSamples, bytesConsumed_lateSamples,
        f1, f2, f3, periodicSamples, finalSnapshot, closeThen, doFileTransferError,
        progressOf, targetOf, readLength] <;>
      exact replicate_append_snoc _ _ _
  | TransferDirectory =>
    simp only [htyp, Bool.and_eq_true, Option.isNone_iff_eq_none] at hstart
    obtain ⟨hmk, htmp⟩ := hstart
    obtain ⟨x1, x2, x3, -⟩ := extractLoop_quiet env.wd (Join [a.SaveDir, msg.Name]) env.entries
    have hC : Changed a env = .Receive a.Code :: directoryTransfer a env msg := by
      simp [Changed, hrecv, htyp]
    rw [hC]
    unfold directoryTransfer directoryCopy
    simp only [hmk]
    cases hT : env.tempFile with
    | error err => simp [hT] at htmp
    | ok tmp =>
      cases hce : env.copyErr <;> cases hz : env.zipErr <;>
        simp [progressValues_append, targetValues_append, bytesConsumed_append,
          progressValues_cons, targetValues_cons, bytesConsumed_cons,
          progressValues_nil, targetValues_nil, bytesConsumed_nil,
          progressValues_copySteps, targetValues_copySteps, bytesConsumed_copySteps,
          progressValues_lateSamples, targetValues_lateSamples, bytesConsumed_lateSamples,
          x1, x2, x3, periodicSamples, finalSnapshot, closeThen, doFileTransferError,
          doError, doSavedAs, progressOf, targetOf, readLength] <;>
        exact replicate_append_snoc _ _ _

/-! ## C8: monotonicity of the progress values -/

set_option maxRecDepth 100000 in
/-- C8 (fails on the code): a File transfer declared as 5 bytes whose stream
delivers 10 shows the progress values 3, 10, 10 and then the final 5: the
sequence decreases at the final snapshot. -/
theorem progress_drops_at_final_snapshot :
    progressValues (Changed argsTmp (envOk msgFile [])) = [3, 10, 10, 5] ∧
    ¬ (progressValues (Changed argsTmp (envOk msgFile []))).Pairwise (· ≤ ·) := by
  have h : progressValues (Changed argsTmp (envOk msgFile [])) = [3, 10, 10, 5] := by decide
  refine ⟨h, ?_⟩
  rw [h]
  decide

/-- C8 (amended): in a File or Directory transfer whose copy is started, the
periodic samples are non-decreasing, the final snapshot sets both target and
progress to the declared size, and the whole sequence including the final
snapshot is non-decreasing when the stream delivers at most the declared
number of bytes. -/
theorem progress_monotone_up_to_final (a : Args) (env : Env) (msg : IncomingMessage)
    (hrecv : env.receive = .ok msg) (hstart : copyStarted a env msg = true) :
    (progressValues (Changed a env)).dropLast.Pairwise (· ≤ ·) ∧
    (progressValues (Changed a env)).getLast? = some msg.UncompressedBytes64 ∧
    (targetValues (Changed a env)).getLast? = some msg.UncompressedBytes64 ∧
    ((bytesConsumed (Changed a env) : Int) ≤ msg.UncompressedBytes64 →
      (progressValues (Changed a env)).Pairwise (· ≤ ·)) := by
  obtain ⟨hp, ht, hb⟩ := started_transfer_observations a env msg hrecv hstart
  rw [hp, ht, hb]
  refine ⟨?_, ?_, ?_, ?_⟩
  · rw [List.dropLast_concat]
    exact periodicSamples_pairwise env
  · simp
  · rw [List.replicate_succ']
    simp
  · intro hle
    rw [List.pairwise_append]
    refine ⟨periodicSamples_pairwise env, by simp, ?_⟩
    intro v hv w hw
    rw [List.mem_singleton] at hw
    rw [hw]
    exact le_trans (periodicSamples_bounds env v hv).2 hle

set_option maxRecDepth 100000 in
/-- A File transfer declared as 10 bytes whose stream delivers 10: the values
3, 10, 10, 10 never decrease. -/
theorem progress_monotone_up_to_final_witness :
    (progressValues (Changed argsTmp (envOk msgFile10 []))).Pairwise (· ≤ ·) :=
  (progress_monotone_up_to_final argsTmp (envOk msgFile10 []) msgFile10 rfl rfl).2.2.2
    (by decide)

theorem samplesWithRead_fst (t : List Effect) (n : Nat) :
    (samplesWithRead n t).map Prod.fst = progressValues t := by
  induction t generalizing n with
  | nil => rfl
  | cons e rest ih =>
    rw [samplesWithRead, List.map_append, ih, progressValues_cons]
    cases h : progressOf e <;> simp

theorem samplesWithRead_append (s t : List Effect) (n : Nat) :
    samplesWithRead n (s ++ t) =
      samplesWithRead n s ++ samplesWithRead (n + bytesConsumed s) t := by
  induction s generalizing n with
  | nil => simp [samplesWithRead, bytesConsumed_nil]
  | cons e rest ih =>
    rw [List.cons_append, samplesWithRead, samplesWithRead, ih, bytesConsumed_cons,
      List.append_assoc, Nat.add_assoc]

theorem samplesWithRead_quiet (t : List Effect) (n : Nat) (h : progressValues t = []) :
    samplesWithRead n t = [] := by
  have := samplesWithRead_fst t n
  rw [h] at this
  exact List.map_eq_nil_iff.mp this

theorem samplesWithRead_copySteps (dst : GoString) (target : Int) (steps : List Step)
    (read : Nat) :
    ∀ p ∈ samplesWithRead read (copySteps dst target read steps), p.1 = (p.2 : Int) := by
  induction steps generalizing read with
  | nil => simp [copySteps, samplesWithRead]
  | cons st rest ih =>
    cases st with
    | read data =>
      rw [copySteps]
      by_cases hd : data = []
      · simpa [hd, samplesWithRead, progressOf, readLength] using ih read
      · simpa [hd, samplesWithRead, progressOf, readLength] using ih (read + data.length)
    | tick =>
      rw [copySteps]
      intro p hp
      simp only [sample, List.cons_append, List.nil_append, samplesWithRead, progressOf,
        readLength, Nat.add_zero, List.mem_cons] at hp
      rcases hp with hp | hp
      · rw [hp]
      · exact ih read p hp

theorem samplesWithRead_lateSamples (target : Int) (read n : Nat) :
    ∀ p ∈ samplesWithRead read (lateSamples target read n), p.1 = (p.2 : Int) := by
  induction n with
  | zero => simp [lateSamples, samplesWithRead]
  | succ n ih =>
    intro p hp
    simp only [lateSamples, sample, List.cons_append, List.nil_append, samplesWithRead,
      progressOf, readLength, Nat.add_zero, List.mem_cons] at hp
    rcases hp with hp | hp
    · rw [hp]
    · exact ih p hp

set_option maxRecDepth 10000 in
/-- The shape of a transfer whose copy was started: effects that touch
neither the progress bar nor the stream, the copy against the sampler, the
end of the copy task, the late samples, the final snapshot and the closing
notice. -/
theorem started_transfer_shape (a : Args) (env : Env) (msg : IncomingMessage)
    (hrecv : env.receive = .ok msg) (hstart : copyStarted a env msg = true) :
    ∃ pre dst mid fin,
      Changed a env =
        pre ++ copySteps dst msg.UncompressedBytes64 0 env.steps ++ mid ++
          lateSamples msg.UncompressedBytes64 (bytesRead env.steps) env.lateTicks ++
          finalSnapshot msg.UncompressedBytes64 ++ fin ∧
      progressValues pre = [] ∧ bytesConsumed pre = 0 ∧
      progressValues mid = [] ∧ bytesConsumed mid = 0 ∧
      progressValues fin = [] := by
  unfold copyStarted at hstart
  cases htyp : msg.Typ with
  | TransferText => simp [htyp] at hstart
  | TransferFile =>
    simp only [htyp, Bool.and_eq_true, Bool.not_eq_true', Option.isNone_iff_eq_none] at hstart
    obtain ⟨hno, hcreate⟩ := hstart
    obtain ⟨f1, -, -, -⟩ := fileFinish_quiet a env (Join [a.SaveDir, msg.Name])
    refine ⟨.Receive a.Code :: (closeThen (.doProg msg.Name msg.Typ) ++
        (if a.Overwrite then [] else [.Stat (Join [a.SaveDir, msg.Name])]) ++
        [.Create (Join [a.SaveDir, msg.Name])]),
      Join [a.SaveDir, msg.Name],
      (match env.copyErr with
        | some err => closeThen (doFileTransferError (Join [a.SaveDir, msg.Name]) err)
        | none => []) ++ [.Close (Join [a.SaveDir, msg.Name]), .closeDone],
      fileFinish a env (Join [a.SaveDir, msg.Name]), ?_, ?_, ?_, ?_, ?_, f1⟩
    · simp [Changed, hrecv, htyp, fileTransfer, hno, hcreate]
    · cases hov : a.Overwrite <;>
        simp [closeThen, progressValues_cons, progressValues_nil, progressValues_append,
          progressOf]
    · cases hov : a.Overwrite <;>
        simp [closeThen, bytesConsumed_cons, bytesConsumed_nil, bytesConsumed_append,
          readLength]
    · cases hce : env.copyErr <;>
        simp [closeThen, doFileTransferError, progressValues_cons, progressValues_nil,
          progressValues_append, progressOf]
    · cases hce : env.copyErr <;>
        simp [closeThen, doFileTransferError, bytesConsumed_cons, bytesConsumed_nil,
          bytesConsumed_append, readLength]
  | TransferDirectory =>
    simp only [htyp, Bool.and_eq_true, Option.isNone_iff_eq_none] at hstart
    obtain ⟨hmk, htmp⟩ := hstart
    obtain ⟨x1, -, x3, -⟩ := extractLoop_quiet env.wd (Join [a.SaveDir, msg.Name]) env.entries
    cases hT : env.tempFile with
    | error err => simp [hT] at htmp
    | ok tmp =>
      refine ⟨.Receive a.Code :: .Mkdir (Join [a.SaveDir, msg.Name]) ::
          .TempFile a.SaveDir (msg.Name ++ ".zip.tmp".toList) ::
          closeThen (.doProg msg.Name msg.Typ),
        tmp,
        (match env.copyErr with
          | some err => closeThen (doFileTransferError msg.Name err)
          | none =>
            .zipNewReader tmp ::
            match env.zipErr with
            | some err => closeThen (doError err)
            | none => extractLoop env.wd (Join [a.SaveDir, msg.Name]) env.entries) ++
          [.Close tmp, .Remove tmp, .closeDone],
        closeThen (doSavedAs (Join [a.SaveDir, msg.Name])), ?_, ?_, ?_, ?_, ?_, ?_⟩
      · simp [Changed, hrecv, htyp, directoryTransfer, directoryCopy, hmk, hT]
      · simp [closeThen, progressValues_cons, progressValues_nil, progressOf]
      · simp [closeThen, bytesConsumed_cons, bytesConsumed_nil, readLength]
      · cases hce : env.copyErr <;> cases hz : env.zipErr <;>
          simp [closeThen, doFileTransferError, doError, progressValues_cons,
            progressValues_nil, progressValues_append, progressOf, x1]
      · cases hce : env.copyErr <;> cases hz : env.zipErr <;>
          simp [closeThen, doFileTransferError, doError, bytesConsumed_cons,
            bytesConsumed_nil, bytesConsumed_append, readLength, x3]
      · simp [closeThen, doSavedAs, progressValues_cons, progressValues_nil, progressOf]

/-- In a transfer whose copy was started, every value passed to `SetProgress`
except the final one is the number of bytes read from the stream before it. -/
theorem started_transfer_samples (a : Args) (env : Env) (msg : IncomingMessage)
    (hrecv : env.receive = .ok msg) (hstart : copyStarted a env msg = true) :
    ∀ p ∈ (samplesWithRead 0 (Changed a env)).dropLast, p.1 = (p.2 : Int) := by
  obtain ⟨pre, dst, mid, fin, hC, p1, b1, p2, b2, p3⟩ :=
    started_transfer_shape a env msg hrecv hstart
  have hfinal : ∀ n, samplesWithRead n (finalSnapshot msg.UncompressedBytes64)
      = [(msg.UncompressedBytes64, n)] := by
    intro n
    simp [finalSnapshot, samplesWithRead, progressOf, readLength]
  rw [hC]
  simp only [samplesWithRead_append, samplesWithRead_quiet _ _ p1, samplesWithRead_quiet _ _ p2,
    samplesWithRead_quiet _ _ p3, hfinal, bytesConsumed_append, bytesConsumed_copySteps, b1, b2,
    List.nil_append, List.append_nil, Nat.zero_add, Nat.add_zero]
  rw [List.dropLast_concat]
  intro p hp
  rcases List.mem_append.mp hp with hp | hp
  · exact samplesWithRead_copySteps _ _ _ _ p hp
  · exact samplesWithRead_lateSamples _ _ _ p hp

/-! ## C9: bound on the periodic samples -/

set_option maxRecDepth 100000 in
/-- C9 (fails on the code): in the Directory transfer of an empty directory
no file bytes are declared, the zip stream has 22 bytes, and the sampler
passes 22 to `SetProgress`. -/
theorem sample_exceeds_declared_size :
    (progressValues (Changed argsTmp envEmptyDir)).dropLast = [22] ∧
    ¬ ∀ v ∈ (progressValues (Changed argsTmp envEmptyDir)).dropLast,
        v ≤ msgEmptyDir.UncompressedBytes64 := by
  have h : (progressValues (Changed argsTmp envEmptyDir)).dropLast = [22] := by
    decide
  refine ⟨h, ?_⟩
  rw [h]
  decide

/-- C9 (amended): in a File or Directory transfer whose copy is started, every
periodic sample passed to `SetProgress` is the number of bytes read from the
incoming stream so far, hence lies between 0 and the number of bytes the
stream delivers; so no value passed to `SetProgress` exceeds the declared
size when the stream delivers at most the declared number of bytes. -/
theorem samples_bounded_by_bytes_read (a : Args) (env : Env) (msg : IncomingMessage)
    (hrecv : env.receive = .ok msg) (hstart : copyStarted a env msg = true) :
    (samplesWithRead 0 (Changed a env)).map Prod.fst = progressValues (Changed a env) ∧
    (∀ p ∈ (samplesWithRead 0 (Changed a env)).dropLast, p.1 = (p.2 : Int)) ∧
    (∀ v ∈ (progressValues (Changed a env)).dropLast,
      0 ≤ v ∧ v ≤ (bytesConsumed (Changed a env) : Int)) ∧
    ((bytesConsumed (Changed a env) : Int) ≤ msg.UncompressedBytes64 →
      ∀ v ∈ progressValues (Changed a env), v ≤ msg.UncompressedBytes64) := by
  refine ⟨samplesWithRead_fst _ 0, started_transfer_samples a env msg hrecv hstart, ?_⟩
  obtain ⟨hp, -, hb⟩ := started_transfer_observations a env msg hrecv hstart
  rw [hp, hb, List.dropLast_concat]
  refine ⟨periodicSamples_bounds env, ?_⟩
  intro hle v hv
  rw [List.mem_append, List.mem_singleton] at hv
  rcases hv with hv | hv
  · exact le_trans (periodicSamples_bounds env v hv).2 hle
  · rw [hv]

set_option maxRecDepth 100000 in
/-- A File transfer declared as 10 bytes whose stream delivers 3 and then 7
bytes: the samples are 3 after 3 bytes and 10 after 10 bytes, the final
snapshot is 10, and no value exceeds 10. -/
theorem samples_bounded_by_bytes_read_witness :
    samplesWithRead 0 (Changed argsTmp (envOk msgFile10 []))
      = [(3, 3), (10, 10), (10, 10), (10, 10)] ∧
    (samplesWithRead 0 (Changed argsTmp (envOk msgFile10 []))).dropLast.all
      (fun p => decide (p.1 = (p.2 : Int))) = true ∧
    (progressValues (Changed argsTmp (envOk msgFile10 []))).all
      (fun v => decide (v ≤ 10)) = true :=
  ⟨by decide,
    List.all_eq_true.mpr fun p hp => decide_eq_true
      ((samples_bounded_by_bytes_read argsTmp (envOk msgFile10 []) msgFile10 rfl rfl).2.1 p hp),
    List.all_eq_true.mpr fun v hv => decide_eq_true
      ((samples_bounded_by_bytes_read argsTmp (envOk msgFile10 []) msgFile10 rfl rfl).2.2.2
        (by decide) v hv)⟩

/-! ## C10: the temporary file of a Directory transfer -/

theorem beforeDone_append (pre post : List Effect) (h : Effect.closeDone ∉ pre) :
    beforeDone (pre ++ .closeDone :: post) = pre := by
  induction pre with
  | nil => simp [beforeDone]
  | cons e pre ih =>
    rw [List.mem_cons, not_or] at h
    rw [List.cons_append, beforeDone, if_neg (Ne.symm h.1), ih h.2]

theorem afterDone_append (pre post : List Effect) (h : Effect.closeDone ∉ pre) :
    afterDone (pre ++ .closeDone :: post) = post := by
  induction pre with
  | nil => simp [afterDone]
  | cons e pre ih =>
    rw [List.mem_cons, not_or] at h
    rw [List.cons_append, afterDone, if_neg (Ne.symm h.1), ih h.2]

theorem closeDone_not_mem_copySteps (dst : GoString) (target : Int) (steps : List Step)
    (read : Nat) : Effect.closeDone ∉ copySteps dst target read steps := by
  induction steps generalizing read with
  | nil => simp [copySteps]
  | cons st rest ih =>
    cases st with
    | read data =>
      rw [copySteps]
      by_cases hd : data = [] <;> simp [hd, ih]
    | tick => simp [copySteps, sample, ih]

theorem closeDone_not_mem_lateSamples (target : Int) (read n : Nat) :
    Effect.closeDone ∉ lateSamples target read n := by
  induction n with
  | zero => simp [lateSamples]
  | succ n ih => simp [lateSamples, sample, ih]

theorem closeDone_not_mem_directoryCopy (a : Args) (env : Env) (msg : IncomingMessage)
    (tmp : GoString) : Effect.closeDone ∉ directoryCopy a env msg tmp := by
  have h1 := closeDone_not_mem_copySteps tmp msg.UncompressedBytes64 env.steps 0
  have h2 := (extractLoop_quiet env.wd (Join [a.SaveDir, msg.Name]) env.entries).2.2.2
  unfold directoryCopy
  cases hce : env.copyErr <;> cases hz : env.zipErr <;>
    simp [h1, h2, closeThen, doFileTransferError, doError]

/-- C10: in a Directory transfer whose temporary file `tmp` was created, the
copy task always reaches its deferred function: whatever the copy, the archive
reader and the extraction loop do, the completion signal is fired, and the
effects before it end with closing and removing the temporary file.  The
signal is fired once, and the `Saved as` notice follows it. -/
theorem temp_file_removed_before_done (a : Args) (env : Env) (msg : IncomingMessage)
    (tmp : GoString) (hrecv : env.receive = .ok msg) (htyp : msg.Typ = .TransferDirectory)
    (hmk : env.mkdirErr = none) (htmp : env.tempFile = .ok tmp) :
    Effect.closeDone ∈ Changed a env ∧
    beforeDone (Changed a env) =
      .Receive a.Code :: .Mkdir (Join [a.SaveDir, msg.Name]) ::
        .TempFile a.SaveDir (msg.Name ++ ".zip.tmp".toList) ::
        (closeThen (.doProg msg.Name .TransferDirectory) ++ directoryCopy a env msg tmp ++
          [.Close tmp, .Remove tmp]) ∧
    Effect.closeDone ∉ afterDone (Changed a env) ∧
    Effect.Remove tmp ∉ afterDone (Changed a env) ∧
    terminalNotices (afterDone (Changed a env))
      = [.ui (doSavedAs (Join [a.SaveDir, msg.Name]))] := by
  have hpre : Effect.closeDone ∉
      .Receive a.Code :: .Mkdir (Join [a.SaveDir, msg.Name]) ::
        .TempFile a.SaveDir (msg.Name ++ ".zip.tmp".toList) ::
        (closeThen (.doProg msg.Name .TransferDirectory) ++ directoryCopy a env msg tmp ++
          [.Close tmp, .Remove tmp]) := by
    simp [closeThen, closeDone_not_mem_directoryCopy]
  have hC : Changed a env =
      (.Receive a.Code :: .Mkdir (Join [a.SaveDir, msg.Name]) ::
        .TempFile a.SaveDir (msg.Name ++ ".zip.tmp".toList) ::
        (closeThen (.doProg msg.Name .TransferDirectory) ++ directoryCopy a env msg tmp ++
          [.Close tmp, .Remove tmp])) ++ .closeDone ::
        (lateSamples msg.UncompressedBytes64 (bytesRead env.steps) env.lateTicks ++
          finalSnapshot msg.UncompressedBytes64 ++
          closeThen (doSavedAs (Join [a.SaveDir, msg.Name]))) := by
    simp [Changed, hrecv, htyp, directoryTransfer, hmk, htmp]
  rw [hC, beforeDone_append _ _ hpre, afterDone_append _ _ hpre]
  have hlate : ∀ n, terminalNotices
      (lateSamples msg.UncompressedBytes64 (bytesRead env.steps) n) = [] ∧
      Effect.Remove tmp ∉ lateSamples msg.UncompressedBytes64 (bytesRead env.steps) n := by
    intro n
    induction n with
    | zero => simp [lateSamples, terminalNotices]
    | succ n ih =>
      obtain ⟨i1, i2⟩ := ih
      simp only [terminalNotices] at i1
      simp [lateSamples, sample, terminalNotices, isTerminal, i1, i2]
  obtain ⟨l1, l2⟩ := hlate env.lateTicks
  simp only [terminalNotices] at l1
  refine ⟨by simp, rfl, ?_, ?_, ?_⟩
  · simp [closeDone_not_mem_lateSamples, finalSnapshot, closeThen, doSavedAs]
  · simp [l2, finalSnapshot, closeThen, doSavedAs]
  · simp [terminalNotices, l1, finalSnapshot, closeThen, doSavedAs, isTerminal]

set_option maxRecDepth 100000 in
/-- An archive with the rejected entry `../../evil.sh`: the temporary file is
closed and removed right before the completion signal. -/
theorem temp_file_removed_before_done_witness :
    (beforeDone (Changed argsTmp (envOk msgDir [mkEntry "../../evil.sh" "x"]))).reverse.take 4
      = [.Remove "/tmp/name.zip.tmp42".toList, .Close "/tmp/name.zip.tmp42".toList,
         .ui (doDangerous "../../evil.sh".toList), .ui .previousClose] ∧
    Effect.closeDone ∈ Changed argsTmp (envOk msgDir [mkEntry "../../evil.sh" "x"]) := by
  have h := temp_file_removed_before_done argsTmp (envOk msgDir [mkEntry "../../evil.sh" "x"])
    msgDir "/tmp/name.zip.tmp42".toList rfl rfl rfl rfl
  exact ⟨by rw [h.2.1]; decide, h.1⟩

/-! ## C11: the outcome of a Text transfer -/

theorem streamData_eq_join (steps : List Step) : streamData steps = (readsOf steps).flatten := by
  induction steps with
  | nil => rfl
  | cons st rest ih => cases st <;> simp [streamData, readsOf, ih]

theorem readData_append (s t : List Effect) : readData (s ++ t) = readData s ++ readData t := by
  simp [readData]

theorem terminalNotices_append (s t : List Effect) :
    terminalNotices (s ++ t) = terminalNotices s ++ terminalNotices t := by
  simp [terminalNotices]

theorem readAllSteps_observations (steps : List Step) :
    readData (readAllSteps steps) = streamData steps ∧
    terminalNotices (readAllSteps steps) = [] := by
  induction steps with
  | nil => simp [readAllSteps, streamData, readData, terminalNotices]
  | cons st rest ih =>
    obtain ⟨i1, i2⟩ := ih
    simp only [readData, terminalNotices] at i1 i2
    cases st <;>
      simp [readAllSteps, streamData, readData, readDataOf, terminalNotices, isTerminal, i1, i2]

theorem lateSpins_observations (n : Nat) :
    readData (lateSpins n) = [] ∧ terminalNotices (lateSpins n) = [] := by
  induction n with
  | zero => simp [lateSpins, readData, terminalNotices]
  | succ n ih =>
    obtain ⟨i1, i2⟩ := ih
    simp only [readData, terminalNotices] at i1 i2
    simp [lateSpins, readData, readDataOf, terminalNotices, isTerminal, i1, i2]

theorem text_transfer_observations (a : Args) (env : Env) (msg : IncomingMessage)
    (hrecv : env.receive = .ok msg) (htyp : msg.Typ = .TransferText)
    (hok : env.copyErr = none) :
    terminalNotices (Changed a env)
      = [.ui (.doMessageThenQuit (streamData env.steps) "Quit".toList)] ∧
    readData (Changed a env) = streamData env.steps := by
  have hC : Changed a env = .Receive a.Code :: textTransfer env := by
    simp [Changed, hrecv, htyp]
  obtain ⟨r1, r2⟩ := readAllSteps_observations env.steps
  obtain ⟨s1, s2⟩ := lateSpins_observations env.lateTicks
  rw [hC]
  unfold textTransfer
  rw [hok]
  constructor
  · rw [show ∀ (e : Effect) (t : List Effect), e :: t = [e] ++ t from fun _ _ => rfl]
    simp only [terminalNotices_append, r2, s2]
    simp [terminalNotices, closeThen, isTerminal]
  · rw [show ∀ (e : Effect) (t : List Effect), e :: t = [e] ++ t from fun _ _ => rfl]
    simp only [readData_append, r1, s1]
    simp [readData, closeThen, readDataOf]

/-- C11: in a Text transfer whose stream is read to the end without error the
only notice is the final one, and its message is exactly the bytes returned
by the reads, concatenated in the order they were read.  It depends on the
schedule only through the reads: another run with the same reads and any
other ticks shows the same notice. -/
theorem text_outcome_is_stream (a : Args) (env env2 : Env) (msg : IncomingMessage)
    (hrecv : env.receive = .ok msg) (htyp : msg.Typ = .TransferText)
    (hok : env.copyErr = none)
    (hrecv2 : env2.receive = .ok msg) (hok2 : env2.copyErr = none)
    (hreads : readsOf env2.steps = readsOf env.steps) :
    terminalNotices (Changed a env)
      = [.ui (.doMessageThenQuit (readsOf env.steps).flatten "Quit".toList)] ∧
    readData (Changed a env) = (readsOf env.steps).flatten ∧
    terminalNotices (Changed a env)
      = [.ui (.doMessageThenQuit (readData (Changed a env)) "Quit".toList)] ∧
    terminalNotices (Changed a env2) = terminalNotices (Changed a env) := by
  obtain ⟨h1, h2⟩ := text_transfer_observations a env msg hrecv htyp hok
  obtain ⟨k1, -⟩ := text_transfer_observations a env2 msg hrecv2 htyp hok2
  rw [h1, h2, k1, streamData_eq_join, streamData_eq_join, hreads]
  exact ⟨rfl, rfl, rfl, rfl⟩

set_option maxRecDepth 100000 in
/-- The stream delivers `abc` and `defghij`: the notice reads `abcdefghij`,
with the sampled schedule and with a schedule without any tick. -/
theorem text_outcome_is_stream_witness :
    terminalNotices (Changed argsTmp (envOk msgText []))
      = [.ui (.doMessageThenQuit "abcdefghij".toList "Quit".toList)] ∧
    terminalNotices (Changed argsTmp
        { envOk msgText [] with
          steps := [.read "abc".toList, .read "defghij".toList], lateTicks := 0 })
      = terminalNotices (Changed argsTmp (envOk msgText [])) := by
  have h := text_outcome_is_stream argsTmp (envOk msgText [])
    { envOk msgText [] with
      steps := [.read "abc".toList, .read "defghij".toList], lateTicks := 0 }
    msgText rfl rfl rfl rfl rfl (by decide)
  exact ⟨h.1.trans (by decide), h.2.2.2⟩

/-! ## C12: release of the transfer handle -/

theorem rejects_eq_count (t : List Effect) : rejects t = t.count .Reject := by
  induction t with
  | nil => rfl
  | cons e t ih => cases e <;> simp [rejects, ih]

theorem rejects_eq_zero (t : List Effect) (h : Effect.Reject ∉ t) : rejects t = 0 := by
  rw [rejects_eq_count]
  exact List.count_eq_zero.mpr h

theorem rejects_append (s t : List Effect) : rejects (s ++ t) = rejects s + rejects t := by
  simp [rejects_eq_count]

theorem reject_not_mem_copySteps (dst : GoString) (target : Int) (steps : List Step)
    (read : Nat) : Effect.Reject ∉ copySteps dst target read steps := by
  induction steps generalizing read with
  | nil => simp [copySteps]
  | cons st rest ih =>
    cases st with
    | read data =>
      rw [copySteps]
      by_cases hd : data = [] <;> simp [hd, ih]
    | tick => simp [copySteps, sample, ih]

theorem reject_not_mem_lateSamples (target : Int) (read n : Nat) :
    Effect.Reject ∉ lateSamples target read n := by
  induction n with
  | zero => simp [lateSamples]
  | succ n ih => simp [lateSamples, sample, ih]

theorem reject_not_mem_readAllSteps (steps : List Step) :
    Effect.Reject ∉ readAllSteps steps := by
  induction steps with
  | nil => simp [readAllSteps]
  | cons st rest ih => cases st <;> simp [readAllSteps, ih]

theorem reject_not_mem_lateSpins (n : Nat) : Effect.Reject ∉ lateSpins n := by
  induction n with
  | zero => simp [lateSpins]
  | succ n ih => simp [lateSpins, ih]

theorem reject_not_mem_extractLoop (wd : Except GoString GoString) (dirName : GoString)
    (entries : List ZipEntry) : Effect.Reject ∉ extractLoop wd dirName entries := by
  induction entries with
  | nil => simp [extractLoop]
  | cons zf rest ih =>
    rw [extractLoop]
    cases hA : Abs wd (Join [dirName, zf.Name]) with
    | error err => simp [errme, closeThen, doError]
    | ok p =>
      cases h1 : zf.openErr <;> cases h2 : zf.mkdirAllErr <;> cases h3 : zf.createErr <;>
        cases h4 : zf.copyErr <;> cases h5 : zf.closeErr <;>
        by_cases hp : HasPrefix p dirName = true <;>
        simp [hp, errme, closeThen, doError, doDangerous, doOpenFailed, ih]

theorem reject_not_mem_fileFinish (a : Args) (env : Env) (f : GoString) :
    Effect.Reject ∉ fileFinish a env f := by
  unfold fileFinish doOpen
  by_cases h1 : a.OpenCmd = [] <;> by_cases h2 : a.NoAskOpen = true <;>
    cases h3 : env.execErr <;> simp [h1, h2, doSavedAs]

theorem reject_not_mem_textTransfer (env : Env) : Effect.Reject ∉ textTransfer env := by
  unfold textTransfer
  cases h : env.copyErr <;>
    simp [closeThen, doTextTransferError, reject_not_mem_readAllSteps,
      reject_not_mem_lateSpins]

set_option maxRecDepth 10000 in
/-- C12: for a handle returned by a successful `Receive`, `Reject` is called
at most once; it is called exactly when the handler returns before the copy
is started (File: overwrite refused or `os.Create` failed; Directory:
`os.Mkdir` or `ioutil.TempFile` failed), and then nothing was read from the
stream; it is not called once the copy has been started, and never for a Text
transfer. -/
theorem reject_exactly_when_not_consumed (a : Args) (env : Env) (msg : IncomingMessage)
    (hrecv : env.receive = .ok msg) :
    rejects (Changed a env) ≤ 1 ∧
    (rejects (Changed a env) = 1 ↔ returnsEarly a env msg = true) ∧
    (returnsEarly a env msg = true → ∀ data, Effect.Read data ∉ Changed a env) ∧
    (copyStarted a env msg = true → rejects (Changed a env) = 0) ∧
    (msg.Typ = .TransferText → rejects (Changed a env) = 0) := by
  cases htyp : msg.Typ with
  | TransferText =>
    have hC : Changed a env = .Receive a.Code :: textTransfer env := by
      simp [Changed, hrecv, htyp]
    have h0 : rejects (Changed a env) = 0 := by
      rw [hC]
      exact rejects_eq_zero _ (by simp [reject_not_mem_textTransfer])
    simp [h0, returnsEarly, copyStarted, htyp]
  | TransferFile =>
    have hC : Changed a env = .Receive a.Code :: fileTransfer a env msg := by
      simp [Changed, hrecv, htyp]
    by_cases hno : (!a.Overwrite && env.destExists) = true
    · have h1 : rejects (Changed a env) = 1 ∧ ∀ data, Effect.Read data ∉ Changed a env := by
        rw [hC]
        unfold fileTransfer
        cases hov : a.Overwrite
        · simp only [hov, Bool.not_false, Bool.true_and] at hno
          simp [hov, hno, closeThen, rejects, doNoOverwrite]
        · simp [hov] at hno
      simp [h1.1, h1.2, returnsEarly, copyStarted, htyp, hno]
    · cases hcr : env.createErr with
      | some err =>
        have h1 : rejects (Changed a env) = 1 ∧ ∀ data, Effect.Read data ∉ Changed a env := by
          rw [hC]
          unfold fileTransfer
          cases hov : a.Overwrite
          · simp only [hov, Bool.not_false, Bool.true_and, Bool.not_eq_true] at hno
            simp [hov, hno, hcr, closeThen, rejects, doFileCreateError]
          · simp [hov, hcr, closeThen, rejects, doFileCreateError]
        simp [h1.1, h1.2, returnsEarly, copyStarted, htyp, hno, hcr]
      | none =>
        have h0 : rejects (Changed a env) = 0 := by
          rw [hC]
          apply rejects_eq_zero
          unfold fileTransfer
          cases hov : a.Overwrite
          · simp only [hov, Bool.not_false, Bool.true_and, Bool.not_eq_true] at hno
            cases hce : env.copyErr <;>
              simp [hov, hno, hcr, closeThen, doFileTransferError, finalSnapshot,
                reject_not_mem_copySteps, reject_not_mem_lateSamples,
                reject_not_mem_fileFinish]
          · cases hce : env.copyErr <;>
              simp [hov, hcr, closeThen, doFileTransferError, finalSnapshot,
                reject_not_mem_copySteps, reject_not_mem_lateSamples,
                reject_not_mem_fileFinish]
        simp [h0, returnsEarly, copyStarted, htyp, hno, hcr]
  | TransferDirectory =>
    have hC : Changed a env = .Receive a.Code :: directoryTransfer a env msg := by
      simp [Changed, hrecv, htyp]
    cases hmk : env.mkdirErr with
    | some err =>
      have h1 : rejects (Changed a env) = 1 ∧ ∀ data, Effect.Read data ∉ Changed a env := by
        rw [hC]
        unfold directoryTransfer
        simp [hmk, closeThen, rejects, doError]
      simp [h1.1, h1.2, returnsEarly, copyStarted, htyp, hmk]
    | none =>
      cases hT : env.tempFile with
      | error err =>
        have h1 : rejects (Changed a env) = 1 ∧ ∀ data, Effect.Read data ∉ Changed a env := by
          rw [hC]
          unfold directoryTransfer
          simp [hmk, hT, closeThen, rejects, doError]
        simp [h1.1, h1.2, returnsEarly, copyStarted, htyp, hmk, hT]
      | ok tmp =>
        have h0 : rejects (Changed a env) = 0 := by
          rw [hC]
          apply rejects_eq_zero
          unfold directoryTransfer directoryCopy
          cases hce : env.copyErr <;> cases hz : env.zipErr <;>
            simp [hmk, hT, closeThen, doFileTransferError, doError, doSavedAs, finalSnapshot,
              reject_not_mem_copySteps, reject_not_mem_lateSamples,
              reject_not_mem_extractLoop]
        simp [h0, returnsEarly, copyStarted, htyp, hmk, hT]

set_option maxRecDepth 100000 in
/-- The file `/tmp/report.pdf` exists: `Reject` is called once and nothing is
read.  When it does not exist the copy runs and `Reject` is not called. -/
theorem reject_exactly_when_not_consumed_witness :
    rejects (Changed argsTmp { envOk msgFile [] with destExists := true }) = 1 ∧
    rejects (Changed argsTmp (envOk msgFile [])) = 0 ∧
    bytesConsumed (Changed argsTmp (envOk msgFile [])) = 10 :=
  ⟨(reject_exactly_when_not_consumed argsTmp { envOk msgFile [] with destExists := true }
      msgFile rfl).2.1.mpr (by decide),
    (reject_exactly_when_not_consumed argsTmp (envOk msgFile []) msgFile rfl).2.2.2.1
      (by decide),
    by decide⟩

/-! ## C13: completeness of the path check -/

set_option maxRecDepth 100000 in
/-- C13 (fails on the code): with the save directory `.` that `main.go` falls
back to and the transfer name `out-real`, the destination is the relative
path `out-real`; the ordinary entry `a.txt` resolves to the absolute path
`/home/u/out-real/a.txt`, which is inside the destination directory, but it
does not start with the string `out-real`: the loop takes the
`Dangerous filename` branch and extracts nothing. -/
theorem relative_saveDir_rejects_ordinary_entry :
    Join [".".toList, msgDir.Name] = "out-real".toList ∧
    resolved (.ok "/home/u".toList) "out-real".toList (mkEntry "a.txt" "x")
      = .ok "/home/u/out-real/a.txt".toList ∧
    withinDir "/home/u/out-real".toList "/home/u/out-real/a.txt".toList = true ∧
    rejected (.ok "/home/u".toList) "out-real".toList (mkEntry "a.txt" "x") = true ∧
    created (Changed { argsTmp with SaveDir := ".".toList } (envOk msgDir [mkEntry "a.txt" "x"]))
      = [] ∧
    terminalNotices
        (Changed { argsTmp with SaveDir := ".".toList } (envOk msgDir [mkEntry "a.txt" "x"]))
      = [.ui (doDangerous "a.txt".toList), .ui (doSavedAs "out-real".toList)] := by
  exact ⟨by decide, rfl, by decide, by decide, by decide, by decide⟩

/-! ### The path check with an absolute save directory -/

theorem splitSep_ne_nil (s : GoString) : splitSep s ≠ [] := by
  cases s with
  | nil => simp [splitSep]
  | cons c cs =>
    rw [splitSep]
    split
    · simp
    · split <;> simp

theorem splitSep_append (a b : GoString) :
    splitSep (a ++ '/' :: b) = splitSep a ++ splitSep b := by
  induction a with
  | nil => simp [splitSep]
  | cons c cs ih =>
    rw [List.cons_append, splitSep, ih]
    by_cases hc : c = '/'
    · simp [hc, splitSep]
    · obtain ⟨h, t, ht⟩ := List.exists_cons_of_ne_nil (splitSep_ne_nil cs)
      simp [hc, ht, splitSep]

theorem splitSep_no_sep (s : GoString) : ∀ e ∈ splitSep s, '/' ∉ e := by
  induction s with
  | nil => simp [splitSep]
  | cons c cs ih =>
    rw [splitSep]
    by_cases hc : c = '/'
    · simp only [hc, if_true, List.mem_cons]
      rintro e (he | he)
      · simp [he]
      · exact ih e he
    · obtain ⟨h, t, ht⟩ := List.exists_cons_of_ne_nil (splitSep_ne_nil cs)
      rw [ht] at ih
      simp only [hc, if_false, ht, List.mem_cons]
      rintro e (he | he)
      · rw [he]
        have := ih h (List.mem_cons_self _ _)
        simp only [List.mem_cons, not_or]
        exact ⟨fun h' => hc h'.symm, this⟩
      · exact ih e (List.mem_cons_of_mem _ he)

theorem splitSep_of_no_sep (e : GoString) (h : '/' ∉ e) : splitSep e = [e] := by
  induction e with
  | nil => rfl
  | cons c cs ih =>
    rw [List.mem_cons, not_or] at h
    have hc : ¬ c = '/' := fun hc => h.1 hc.symm
    rw [splitSep, ih h.2]
    simp [hc]

theorem splitSep_joinSep (elems : List GoString) (hne : elems ≠ [])
    (h : ∀ e ∈ elems, '/' ∉ e) : splitSep (joinSep elems) = elems := by
  induction elems with
  | nil => exact absurd rfl hne
  | cons e rest ih =>
    cases rest with
    | nil => exact splitSep_of_no_sep e (h e (List.mem_cons_self _ _))
    | cons e2 rest2 =>
      have ih2 := ih (List.cons_ne_nil _ _) (fun x hx => h x (List.mem_cons_of_mem _ hx))
      rw [show joinSep (e :: e2 :: rest2) = e ++ '/' :: joinSep (e2 :: rest2) from rfl,
        splitSep_append, splitSep_of_no_sep e (h e (List.mem_cons_self _ _)), ih2]
      rfl

theorem foldl_cleanStep_no_dotdot (rooted : Bool) (elems out : List GoString)
    (h : ∀ e ∈ elems, e ≠ ['.', '.']) :
    elems.foldl (cleanStep rooted) out = (elems.filter isKept).reverse ++ out := by
  induction elems generalizing out with
  | nil => rfl
  | cons e rest ih =>
    have he := h e (List.mem_cons_self _ _)
    rw [List.foldl_cons, ih _ (fun x hx => h x (List.mem_cons_of_mem _ hx))]
    by_cases h1 : e = []
    · simp [cleanStep, isKept, h1]
    · by_cases h2 : e = ['.']
      · simp [cleanStep, isKept, h2]
      · simp [cleanStep, isKept, h1, h2, he]

theorem foldl_cleanStep_ordinary (elems out : List GoString)
    (hout : ∀ e ∈ out, Ordinary e) (h : ∀ e ∈ elems, '/' ∉ e) :
    ∀ e ∈ elems.foldl (cleanStep true) out, Ordinary e := by
  induction elems generalizing out with
  | nil => exact hout
  | cons x rest ih =>
    rw [List.foldl_cons]
    apply ih _ _ (fun e he => h e (List.mem_cons_of_mem _ he))
    have hx := h x (List.mem_cons_self _ _)
    unfold cleanStep
    by_cases h1 : x = []
    · simpa [h1] using hout
    · by_cases h2 : x = ['.']
      · simpa [h2] using hout
      · by_cases h3 : x = ['.', '.']
        · cases out with
          | nil => simp [h3]
          | cons top tl =>
            have htop := (hout top (List.mem_cons_self _ _)).2.2.1
            simp only [h3, htop, if_false]
            simp only [List.cons_ne_nil, if_false]
            rw [if_neg (by decide)]
            simp only [if_true]
            exact fun e he => hout e (List.mem_cons_of_mem _ he)
        · simp only [h1, h2, h3, if_false]
          intro e he
          rcases List.mem_cons.mp he with rfl | he
          · exact ⟨h1, h2, h3, hx⟩
          · exact hout e he

theorem clean_rooted (cs : GoString) :
    Clean ('/' :: cs) =
      rootedPath ((splitSep ('/' :: cs)).foldl (cleanStep true) []).reverse := by
  simp [Clean, HasPrefix, rootedPath]

theorem kept_splitSep_rootedPath (elems : List GoString) (h : ∀ e ∈ elems, Ordinary e) :
    (splitSep (rootedPath elems)).filter isKept = elems ∧
    ∀ e ∈ splitSep (rootedPath elems), e ≠ ['.', '.'] := by
  have hsplit : splitSep (rootedPath elems) = [] :: splitSep (joinSep elems) := by
    simp [rootedPath, splitSep]
  rw [hsplit]
  cases elems with
  | nil => simp [joinSep, splitSep, isKept]
  | cons x rest =>
    rw [splitSep_joinSep _ (List.cons_ne_nil _ _) (fun e he => (h e he).2.2.2)]
    constructor
    · rw [List.filter_cons_of_neg (by simp [isKept]), List.filter_eq_self]
      intro e he
      obtain ⟨h1, h2, -, -⟩ := h e he
      simp [isKept, h1, h2]
    · intro e he
      rcases List.mem_cons.mp he with rfl | he
      · simp
      · exact (h e he).2.2.1

theorem kept_ordinary (name : GoString) (h : ∀ e ∈ splitSep name, e ≠ ['.', '.']) :
    ∀ e ∈ (splitSep name).filter isKept, Ordinary e := by
  intro e he
  rw [List.mem_filter] at he
  obtain ⟨hmem, hk⟩ := he
  simp only [isKept, Bool.not_eq_true', Bool.or_eq_false_iff, beq_eq_false_iff_ne] at hk
  exact ⟨hk.1, hk.2, h e hmem, splitSep_no_sep name e hmem⟩

theorem clean_rootedPath_join (elems : List GoString) (name : GoString)
    (h : ∀ e ∈ elems, Ordinary e) (hname : ∀ e ∈ splitSep name, e ≠ ['.', '.']) :
    Clean (rootedPath elems ++ '/' :: name)
      = rootedPath (elems ++ (splitSep name).filter isKept) := by
  obtain ⟨k1, k2⟩ := kept_splitSep_rootedPath elems h
  have hno : ∀ e ∈ splitSep (rootedPath elems) ++ splitSep name, e ≠ ['.', '.'] := by
    intro e he
    rcases List.mem_append.mp he with he | he
    · exact k2 e he
    · exact hname e he
  rw [show rootedPath elems ++ '/' :: name = '/' :: (joinSep elems ++ '/' :: name) from rfl,
    clean_rooted,
    show '/' :: (joinSep elems ++ '/' :: name) = rootedPath elems ++ '/' :: name from rfl,
    splitSep_append, foldl_cleanStep_no_dotdot _ _ _ hno, List.append_nil, List.reverse_reverse,
    List.filter_append, k1]

theorem clean_rootedPath (elems : List GoString) (h : ∀ e ∈ elems, Ordinary e) :
    Clean (rootedPath elems) = rootedPath elems := by
  obtain ⟨k1, k2⟩ := kept_splitSep_rootedPath elems h
  rw [show rootedPath elems = '/' :: joinSep elems from rfl, clean_rooted,
    show '/' :: joinSep elems = rootedPath elems from rfl,
    foldl_cleanStep_no_dotdot _ _ _ k2, List.append_nil, List.reverse_reverse, k1]

theorem clean_rooted_ordinary (cs : GoString) :
    ∃ elems, (∀ e ∈ elems, Ordinary e) ∧ Clean ('/' :: cs) = rootedPath elems := by
  refine ⟨((splitSep ('/' :: cs)).foldl (cleanStep true) []).reverse, ?_, clean_rooted cs⟩
  intro e he
  rw [List.mem_reverse] at he
  exact foldl_cleanStep_ordinary _ [] (by simp) (splitSep_no_sep _) e he

theorem hasPrefix_append (a t : GoString) : HasPrefix (a ++ t) a = true := by
  induction a with
  | nil => cases t <;> rfl
  | cons c cs ih => simp [HasPrefix, ih]

theorem joinSep_append_exists (l m : List GoString) :
    ∃ t, joinSep (l ++ m) = joinSep l ++ t := by
  induction l with
  | nil => exact ⟨joinSep m, rfl⟩
  | cons e rest ih =>
    cases rest with
    | nil =>
      cases m with
      | nil => exact ⟨[], by simp [joinSep]⟩
      | cons x xs => exact ⟨'/' :: joinSep (x :: xs), rfl⟩
    | cons e2 rest2 =>
      obtain ⟨t, ht⟩ := ih
      refine ⟨t, ?_⟩
      rw [show joinSep (e :: e2 :: rest2) = e ++ '/' :: joinSep (e2 :: rest2) from rfl,
        show joinSep (e :: e2 :: rest2 ++ m) = e ++ '/' :: joinSep (e2 :: rest2 ++ m) from rfl,
        ht]
      simp

/-- With an absolute save directory the path check accepts every entry whose
name has no `..` element: the destination is a cleaned rooted path and the
resolved path is that path followed by the kept elements of the name. -/
theorem absolute_saveDir_accepts (wd : Except GoString GoString) (SaveDir Name : GoString)
    (zf : ZipEntry) (habs : IsAbs SaveDir = true)
    (hord : ∀ e ∈ splitSep zf.Name, e ≠ ['.', '.']) :
    accepted wd (Join [SaveDir, Name]) zf = true := by
  obtain ⟨cs, rfl⟩ : ∃ cs, SaveDir = '/' :: cs := by
    cases SaveDir with
    | nil => simp [IsAbs, HasPrefix] at habs
    | cons c cs =>
      refine ⟨cs, ?_⟩
      have : c = '/' := by simpa [IsAbs, HasPrefix] using habs
      rw [this]
  obtain ⟨elems, hel, hclean⟩ := clean_rooted_ordinary (cs ++ '/' :: Name)
  have hdir : Join ['/' :: cs, Name] = rootedPath elems := by
    rw [← hclean]
    simp [Join, joinSep]
  have hp : Join [rootedPath elems, zf.Name]
      = rootedPath (elems ++ (splitSep zf.Name).filter isKept) := by
    rw [← clean_rootedPath_join elems zf.Name hel hord]
    simp [Join, joinSep, rootedPath]
  have hall : ∀ e ∈ elems ++ (splitSep zf.Name).filter isKept, Ordinary e := by
    intro e he
    rcases List.mem_append.mp he with he | he
    · exact hel e he
    · exact kept_ordinary zf.Name hord e he
  obtain ⟨t, ht⟩ := joinSep_append_exists elems ((splitSep zf.Name).filter isKept)
  rw [hdir]
  unfold accepted resolved Abs
  rw [hp, if_pos (by simp [IsAbs, rootedPath, HasPrefix]), clean_rootedPath _ hall]
  show HasPrefix (rootedPath _) (rootedPath elems) = true
  rw [rootedPath, ht]
  exact hasPrefix_append ('/' :: joinSep elems) t

end Wormflow

namespace Hilite

/-! ## C14: the index mapping of the highlighter -/

theorem toByte_range (r : Int) : 32 ≤ toByte r ∧ toByte r ≤ 127 := by
  unfold toByte
  split
  · omega
  · omega

theorem storeCells_spec (c : Canvas) (i k : Nat) (st : List Nat × Nat)
    (h : st.2 + k ≤ st.1.length) :
    ((List.range k).foldl (storeCell c i) st).2 = st.2 + k ∧
    ((List.range k).foldl (storeCell c i) st).1.length = st.1.length ∧
    ∀ m, ((List.range k).foldl (storeCell c i) st).1[m]? =
      if st.2 ≤ m ∧ m < st.2 + k then some (toByte (c.CellAt (m - st.2) i).Rune)
      else st.1[m]? := by
  induction k with
  | zero =>
    refine ⟨rfl, rfl, fun m => ?_⟩
    have : ¬ (st.2 ≤ m ∧ m < st.2) := by omega
    simp [this]
  | succ k ih =>
    obtain ⟨i1, i2, i3⟩ := ih (by omega)
    rw [List.range_succ, List.foldl_append, List.foldl_cons, List.foldl_nil]
    refine ⟨?_, ?_, fun m => ?_⟩
    · simp only [storeCell, i1]
      omega
    · simp only [storeCell, List.length_set, i2]
    · simp only [storeCell, List.getElem?_set, i1, i2, i3]
      by_cases hm : st.2 + k = m
      · subst hm
        have h1 : st.2 + k < st.1.length := by omega
        have h2 : st.2 ≤ st.2 + k ∧ st.2 + k < st.2 + (k + 1) := by omega
        simp [h1, h2]
      · by_cases hin : st.2 ≤ m ∧ m < st.2 + k
        · have h2 : st.2 ≤ m ∧ m < st.2 + (k + 1) := by omega
          simp [hm, hin, h2]
        · have h2 : ¬ (st.2 ≤ m ∧ m < st.2 + (k + 1)) := by omega
          simp [hm, hin, h2]

theorem storeRows_spec (c : Canvas) (k : Nat) (res : List Nat)
    (h : k * c.BoxColumns ≤ res.length) :
    ((List.range k).foldl (storeRow c) (res, 0)).2 = k * c.BoxColumns ∧
    ((List.range k).foldl (storeRow c) (res, 0)).1.length = res.length ∧
    ∀ m, ((List.range k).foldl (storeRow c) (res, 0)).1[m]? =
      if m < k * c.BoxColumns
      then some (toByte (c.CellAt (m % c.BoxColumns) (m / c.BoxColumns)).Rune)
      else res[m]? := by
  induction k with
  | zero =>
    refine ⟨by simp, rfl, fun m => ?_⟩
    simp
  | succ k ih =>
    have hk : k * c.BoxColumns + c.BoxColumns = (k + 1) * c.BoxColumns := by
      rw [Nat.add_mul, Nat.one_mul]
    obtain ⟨i1, i2, i3⟩ := ih (by omega)
    rw [List.range_succ, List.foldl_append, List.foldl_cons, List.foldl_nil]
    obtain ⟨j1, j2, j3⟩ := storeCells_spec c k c.BoxColumns
      ((List.range k).foldl (storeRow c) (res, 0)) (by rw [i1, i2]; omega)
    refine ⟨?_, ?_, fun m => ?_⟩
    · rw [storeRow, j1, i1, hk]
    · rw [storeRow, j2, i2]
    · rw [storeRow, j3, i1, i3, hk]
      by_cases hlo : m < k * c.BoxColumns
      · have h1 : ¬ (k * c.BoxColumns ≤ m ∧ m < (k + 1) * c.BoxColumns) := by omega
        have h2 : m < (k + 1) * c.BoxColumns := by omega
        simp [hlo, h1, h2]
      · by_cases hhi : m < (k + 1) * c.BoxColumns
        · have h1 : k * c.BoxColumns ≤ m ∧ m < (k + 1) * c.BoxColumns := by omega
          have hpos : 0 < c.BoxColumns := by
            rcases Nat.eq_zero_or_pos c.BoxColumns with h0 | h0
            · rw [h0] at hhi; simp at hhi
            · exact h0
          have hdiv : m / c.BoxColumns = k := by
            apply Nat.div_eq_of_lt_le
            · exact h1.1
            · exact h1.2
          have hmod : m % c.BoxColumns = m - k * c.BoxColumns := by
            have := Nat.div_add_mod m c.BoxColumns
            rw [hdiv, Nat.mul_comm] at this
            omega
          simp [h1, hhi, hdiv, hmod]
        · have h1 : ¬ (k * c.BoxColumns ≤ m ∧ m < (k + 1) * c.BoxColumns) := by omega
          simp [hlo, h1, hhi]

theorem canvasToArray_getElem? (c : Canvas) (m : Nat) :
    (canvasToArray c)[m]? =
      if m < c.BoxRows * c.BoxColumns
      then some (toByte (c.CellAt (m % c.BoxColumns) (m / c.BoxColumns)).Rune)
      else none := by
  obtain ⟨-, -, h3⟩ := storeRows_spec c c.BoxRows
    (List.replicate (c.BoxRows * c.BoxColumns) 0) (by simp)
  rw [canvasToArray, h3]
  by_cases h : m < c.BoxRows * c.BoxColumns
  · simp [h]
  · simp [h, List.getElem?_replicate]

theorem canvasToArray_length (c : Canvas) :
    (canvasToArray c).length = c.BoxRows * c.BoxColumns := by
  obtain ⟨-, h2, -⟩ := storeRows_spec c c.BoxRows
    (List.replicate (c.BoxRows * c.BoxColumns) 0) (by simp)
  rw [canvasToArray, h2, List.length_replicate]

theorem canvasToArray_bytes (c : Canvas) : ∀ b ∈ canvasToArray c, 32 ≤ b ∧ b ≤ 127 := by
  intro b hb
  obtain ⟨n, hn⟩ := List.mem_iff_getElem?.mp hb
  rw [canvasToArray_getElem?] at hn
  split at hn
  · simp only [Option.some.injEq] at hn
    rw [← hn]
    exact toByte_range _
  · simp at hn

theorem recolour_idem (opt : Options) (cell : Cell) :
    recolour opt (recolour opt cell) = recolour opt cell := rfl

theorem hiliteIndices_spec (opt : Options) (wid : Nat) (js : List Nat) (res : Canvas) :
    (js.foldl (hiliteIndex opt wid) res).BoxRows = res.BoxRows ∧
    (js.foldl (hiliteIndex opt wid) res).BoxColumns = res.BoxColumns ∧
    ∀ x y,
      ((∃ j ∈ js, j % wid = x ∧ j / wid = y) →
        (js.foldl (hiliteIndex opt wid) res).CellAt x y = recolour opt (res.CellAt x y)) ∧
      ((¬ ∃ j ∈ js, j % wid = x ∧ j / wid = y) →
        (js.foldl (hiliteIndex opt wid) res).CellAt x y = res.CellAt x y) := by
  induction js generalizing res with
  | nil => simp
  | cons j rest ih =>
    obtain ⟨i1, i2, i3⟩ := ih (hiliteIndex opt wid res j)
    rw [List.foldl_cons]
    refine ⟨by rw [i1]; rfl, by rw [i2]; rfl, fun x y => ?_⟩
    obtain ⟨a1, a2⟩ := i3 x y
    have hset : (hiliteIndex opt wid res j).CellAt x y =
        if x = j % wid ∧ y = j / wid then recolour opt (res.CellAt (j % wid) (j / wid))
        else res.CellAt x y := rfl
    by_cases hrest : ∃ j2 ∈ rest, j2 % wid = x ∧ j2 / wid = y
    · have hall : ∃ j2 ∈ j :: rest, j2 % wid = x ∧ j2 / wid = y := by
        obtain ⟨j2, hj2, hx⟩ := hrest
        exact ⟨j2, List.mem_cons_of_mem _ hj2, hx⟩
      refine ⟨fun _ => ?_, fun hn => absurd hall hn⟩
      rw [a1 hrest, hset]
      by_cases hxy : x = j % wid ∧ y = j / wid
      · rw [if_pos hxy, hxy.1, hxy.2, recolour_idem]
      · rw [if_neg hxy]
    · rw [a2 hrest, hset]
      by_cases hxy : x = j % wid ∧ y = j / wid
      · rw [if_pos hxy, hxy.1, hxy.2]
        exact ⟨fun _ => rfl, fun hn => absurd ⟨j, List.mem_cons_self _ _, rfl, rfl⟩ hn⟩
      · rw [if_neg hxy]
        refine ⟨fun hall => ?_, fun _ => rfl⟩
        obtain ⟨j2, hj2, hx⟩ := hall
        rcases List.mem_cons.mp hj2 with h | h
        · subst h
          exact absurd ⟨hx.1.symm, hx.2.symm⟩ hxy
        · exact absurd ⟨j2, h, hx⟩ hrest

theorem foldl_hiliteMatch (opt : Options) (wid : Nat) (found : List (Nat × Nat))
    (res : Canvas) :
    found.foldl (hiliteMatch opt wid) res =
      (found.flatMap (fun m => List.range' m.1 (m.2 - m.1))).foldl (hiliteIndex opt wid) res := by
  induction found generalizing res with
  | nil => rfl
  | cons m rest ih => simp [List.flatMap_cons, List.foldl_append, hiliteMatch, ih]

theorem mem_indices_iff (found : List (Nat × Nat)) (j : Nat) :
    j ∈ found.flatMap (fun m => List.range' m.1 (m.2 - m.1)) ↔ inMatch found j := by
  simp only [List.mem_flatMap, List.mem_range'_1, inMatch]
  constructor
  · rintro ⟨m, hm, h1, h2⟩
    exact ⟨m, hm, h1, by omega⟩
  · rintro ⟨m, hm, h1, h2⟩
    exact ⟨m, hm, h1, by omega⟩

theorem index_in_canvas (rows cols j : Nat) (hcols : 1 ≤ cols) (hj : j < rows * cols) :
    j % cols < cols ∧ j / cols < rows := by
  refine ⟨Nat.mod_lt _ (by omega), ?_⟩
  rw [Nat.div_lt_iff_lt_mul (by omega)]
  exact hj

theorem index_of_cell (cols x y j : Nat) (hx : x < cols) :
    (j % cols = x ∧ j / cols = y) ↔ j = y * cols + x := by
  constructor
  · rintro ⟨h1, h2⟩
    have := Nat.div_add_mod j cols
    rw [h1, h2, Nat.mul_comm] at this
    exact this.symm
  · intro h
    subst h
    constructor
    · rw [Nat.add_comm, Nat.add_mul_mod_self_right, Nat.mod_eq_of_lt hx]
    · rw [Nat.add_comm, Nat.add_mul_div_right _ _ (by omega), Nat.div_eq_of_lt hx, Nat.zero_add]

/-- C14: for a canvas with at least one column, `canvasToArray` returns
`BoxRows * BoxColumns` bytes, each in 32..127, the byte at index `n` being
the sanitised rune of the cell in column `n mod BoxColumns` and row
`n div BoxColumns`.  When the matches reported by the regexp lie within that
array, every index of a match interval names a cell inside the canvas, and
`Render` recolours exactly the cells whose row-major index lies in a match
interval: such a cell keeps its rune and gets `Opt.Foreground` as foreground
and `Opt.Background` as background; every other cell, inside or outside the
box, and the box size are unchanged. -/
theorem Render_recolours_matches (FindAllIndex : List Nat → List (Nat × Nat)) (opt : Options)
    (res : Canvas) (hcols : 1 ≤ res.BoxColumns)
    (hfound : ∀ m ∈ FindAllIndex (canvasToArray res), m.2 ≤ (canvasToArray res).length) :
    (canvasToArray res).length = res.BoxRows * res.BoxColumns ∧
    (∀ b ∈ canvasToArray res, 32 ≤ b ∧ b ≤ 127) ∧
    (∀ n, n < res.BoxRows * res.BoxColumns →
      (canvasToArray res)[n]? =
        some (toByte (res.CellAt (n % res.BoxColumns) (n / res.BoxColumns)).Rune)) ∧
    (∀ j, inMatch (FindAllIndex (canvasToArray res)) j →
      j % res.BoxColumns < res.BoxColumns ∧ j / res.BoxColumns < res.BoxRows) ∧
    (∀ x y, x < res.BoxColumns → y < res.BoxRows →
      inMatch (FindAllIndex (canvasToArray res)) (y * res.BoxColumns + x) →
      (Render FindAllIndex opt res).CellAt x y =
        { Rune := (res.CellAt x y).Rune, Foreground := some opt.Foreground,
          Background := some opt.Background }) ∧
    (∀ x y, x < res.BoxColumns → y < res.BoxRows →
      ¬ inMatch (FindAllIndex (canvasToArray res)) (y * res.BoxColumns + x) →
      (Render FindAllIndex opt res).CellAt x y = res.CellAt x y) ∧
    (∀ x y, ¬ (x < res.BoxColumns ∧ y < res.BoxRows) →
      (Render FindAllIndex opt res).CellAt x y = res.CellAt x y) ∧
    (Render FindAllIndex opt res).BoxRows = res.BoxRows ∧
    (Render FindAllIndex opt res).BoxColumns = res.BoxColumns := by
  have hin : ∀ j, inMatch (FindAllIndex (canvasToArray res)) j →
      j % res.BoxColumns < res.BoxColumns ∧ j / res.BoxColumns < res.BoxRows := by
    rintro j ⟨m, hm, -, h2⟩
    have := hfound m hm
    rw [canvasToArray_length] at this
    exact index_in_canvas _ _ _ hcols (by omega)
  have hR : Render FindAllIndex opt res =
      ((FindAllIndex (canvasToArray res)).flatMap
        (fun m => List.range' m.1 (m.2 - m.1))).foldl (hiliteIndex opt res.BoxColumns) res := by
    unfold Render
    simp only [foldl_hiliteMatch]
    rw [if_neg (by omega)]
  obtain ⟨s1, s2, s3⟩ := hiliteIndices_spec opt res.BoxColumns
    ((FindAllIndex (canvasToArray res)).flatMap (fun m => List.range' m.1 (m.2 - m.1))) res
  rw [← hR] at s1 s2 s3
  refine ⟨canvasToArray_length res, canvasToArray_bytes res, ?_, hin, ?_, ?_, ?_, s1, s2⟩
  · intro n hn
    rw [canvasToArray_getElem?, if_pos hn]
  · intro x y hx _ hm
    rw [(s3 x y).1 ⟨y * res.BoxColumns + x, (mem_indices_iff _ _).mpr hm,
      (index_of_cell _ x y _ hx).mpr rfl⟩]
    rfl
  · intro x y hx _ hm
    apply (s3 x y).2
    rintro ⟨j, hj, hxy⟩
    rw [(index_of_cell _ x y j hx).mp hxy] at hj
    exact hm ((mem_indices_iff _ _).mp hj)
  · intro x y hout
    apply (s3 x y).2
    rintro ⟨j, hj, hxy⟩
    have := hin j ((mem_indices_iff _ _).mp hj)
    rw [hxy.1, hxy.2] at this
    exact hout this

/-- On the 2 by 3 canvas `ab\t` over `cde` the scanned bytes are `ab cde`; with
background 2 and foreground 7 the match `[1, 4)` gives the cell of index 3,
which shows `c`, the foreground 7 and the background 2, and the cell of
index 4 keeps its colours. -/
theorem Render_recolours_matches_witness :
    canvasToArray canvas23 = [97, 98, 32, 99, 100, 101] ∧
    (Render match14 ⟨2, 7⟩ canvas23).CellAt 0 1 = ⟨99, some 7, some 2⟩ ∧
    (Render match14 ⟨2, 7⟩ canvas23).CellAt 1 1 = ⟨100, none, none⟩ := by
  have h := Render_recolours_matches match14 ⟨2, 7⟩ canvas23 (by decide) (by decide)
  exact ⟨by decide, h.2.2.2.2.1 0 1 (by decide) (by decide) ⟨(1, 4), by decide⟩,
    h.2.2.2.2.2.1 1 1 (by decide) (by decide) (by
      rintro ⟨m, hm, h1, h2⟩
      simp only [match14, List.mem_singleton] at hm
      subst hm
      simp [canvas23] at h2)⟩

end Hilite
